import Mathlib

/-!
Verification development for `ripsrc/history3/incblame/apply.go`, the
incremental-blame apply engine.

Modelling conventions (shallow embedding):
* Go `[]byte` is `List Nat` (one `Nat` per byte); Go `string` is `String`.
* Go `int` is `Int` where negative values are reachable (hunk offsets,
  per-parent cursors), `Nat` otherwise.
* Go panics (both the explicit `panic(fmt.Errorf(...))` calls and runtime
  slice-bounds panics) are modelled as `Except.error` with a descriptive
  message; exact message bytes are not part of any claim.
* `bufio.Scanner` splits `Hunk.Data` on newlines before the apply loops run;
  the embedding represents `Data` already split into its body lines
  (`List (List Nat)`), which is the scanner's output for the inputs the
  engine processes.  `copyBytes` (apply.go:278-282) is the identity on the
  value level and is not reproduced.
* `sort.Slice` (apply.go:100-104 and 221-225) is an unstable in-place sort;
  the embedding uses a deterministic insertion sort with the same comparator
  (`Locations[0].Offset >`), which agrees with the Go code whenever the
  first-location offsets are pairwise distinct.
* The `Diff`, `Hunk` and `Location` types are declared in a file of the
  `incblame` package that is not under `src/`; their fields are modelled from
  their usage in apply.go (`diff.Hunks`, `h.Locations[k].Offset`, `h.Data`)
  plus the spec's data model (which additionally gives `Diff` an
  `is_binary` flag).
-/

deriving instance DecidableEq for Except

namespace Incblame

/-- A byte of a Go `[]byte` value. -/
abbrev Byte := Nat

/-- `' '` -/
def spaceB : Byte := 32

/-- `'\t'` -/
def tabB : Byte := 9

/-- `'-'` -/
def minusB : Byte := 45

/-- `'+'` -/
def plusB : Byte := 43

/-- `'\\'` (apply.go:259 matches byte 92) -/
def backslashB : Byte := 92

/-- Byte list of an ASCII string. -/
def strBytes (s : String) : List Byte :=
  s.data.map Char.toNat

/-- The exact sentinel line accepted at apply.go:260, the bytes of
`\ No newline at end of file` (see `noNewline_bytes` below for the tie to
the string literal). -/
def noNewline : List Byte :=
  [92, 32, 78, 111, 32, 110, 101, 119, 108, 105, 110, 101, 32, 97, 116, 32,
   101, 110, 100, 32, 111, 102, 32, 102, 105, 108, 101]

/-- `Line` (apply.go:19-22): actual data and commit hash for one file line. -/
structure Line where
  Line : List Byte
  Commit : String
deriving DecidableEq

instance : Inhabited Line := ⟨⟨[], ""⟩⟩

/-- `Blame` (apply.go:13-16): blame information for a file. -/
structure Blame where
  Commit : String
  Lines : List Line
deriving DecidableEq

instance : Inhabited Blame := ⟨⟨"", []⟩⟩

/-- One entry of `Hunk.Locations`; only the `Offset` field is used by
apply.go (lines 103, 110, 119).  The type itself is declared outside
`src/`. -/
structure Location where
  Offset : Int
deriving DecidableEq

instance : Inhabited Location := ⟨⟨0⟩⟩

/-- A diff hunk: per-parent locations and the body (`Data` is kept
pre-split into its scanner lines, see the file comment).  The type itself
is declared outside `src/`. -/
structure Hunk where
  Locations : List Location
  Data : List (List Byte)
deriving DecidableEq

/-- A parsed diff for one file.  The `Hunks` field is used by apply.go;
`IsBinary` is modelled from the spec's data model ("**Diff**: a tuple
`(is_binary, hunks)`"), since the parser lives outside `src/`. -/
structure Diff where
  Hunks : List Hunk
  IsBinary : Bool
deriving DecidableEq

/-- First-location offset of a hunk, the sort key of apply.go:100-104 and
221-225.  The Go comparator indexes `Locations[0]` and would abort on an
empty `Locations` list; the embedding totalizes the key with offset 0 (no
claim depends on sorting a hunk with no locations). -/
def hunkKey (h : Hunk) : Int :=
  (h.Locations.headD ⟨0⟩).Offset

/-- Insert into a descending-by-key list, realising the `sort.Slice`
comparator `a.Locations[0].Offset > b.Locations[0].Offset`. -/
def insertHunkDesc (h : Hunk) : List Hunk → List Hunk
  | [] => [h]
  | h' :: rest =>
    if hunkKey h' < hunkKey h then h :: h' :: rest
    else h' :: insertHunkDesc h rest

/-- The in-place `sort.Slice` of apply.go:100-104/221-225 (descending by
first-location offset), as a deterministic insertion sort. -/
def sortHunksDesc : List Hunk → List Hunk
  | [] => []
  | h :: rest => insertHunkDesc h (sortHunksDesc rest)

/-- `remLine` (apply.go:84-89 and 205-210): delete `res[i]`.  The explicit
guard panics for `i > len(res)`; the slice expressions `res[:i]` and
`res[i+1:]` additionally panic for `i < 0` and for `i = len(res)` (the
default upper bound of `res[i+1:]` is `len(res)`), so the domain of
successful calls is exactly `0 ≤ i < len(res)`. -/
def remLine (i : Int) (res : List Line) : Except String (List Line) :=
  if i < 0 ∨ (res.length : Int) ≤ i then
    .error "trying to remove line which is not in blame"
  else
    .ok (res.take i.toNat ++ res.drop (i.toNat + 1))

/-- `addLine` (apply.go:90-98 and 211-219): insert a line at index `i`.
`res[:i]` aborts for `i < 0` or `i` beyond the slice, so the domain of
successful calls is `0 ≤ i ≤ len(res)`.  (Go's `res[:i]` tolerates
`len(res) < i ≤ cap(res)` and then exposes stale cells; the embedding
treats every `i > len(res)` as the out-of-range abort, and no theorem
below relies on the behaviour past `len(res)`.) -/
def addLine (i : Int) (data : List Byte) (commit : String) (res : List Line) :
    Except String (List Line) :=
  if i < 0 ∨ (res.length : Int) < i then
    .error "addLine index out of range"
  else
    .ok (res.take i.toNat ++ ⟨data, commit⟩ :: res.drop i.toNat)

/-- One body line of the single-parent loop (apply.go:240-269).  State is
`(res, i)`: the output buffer and the output cursor. -/
def applyLine (commit : String) (st : List Line × Int) (b : List Byte) :
    Except String (List Line × Int) :=
  match b with
  | [] => .error "could not process patch line, it was empty"
  | op :: data =>
    if op = spaceB ∨ op = tabB then
      .ok (st.1, st.2 + 1)
    else if op = minusB then
      (remLine st.2 st.1).map (fun r => (r, st.2))
    else if op = plusB then
      (addLine st.2 data commit st.1).map (fun r => (r, st.2 + 1))
    else if op = backslashB then
      if op :: data = noNewline then .ok st
      else .error "invalid patch line, starts with backslash"
    else .error "invalid patch prefix"

/-- One hunk of the single-parent loop (apply.go:227-273): check the
location list, set the initial cursor `i = Locations[0].Offset - 1`
(offset 0 is treated as offset 1), then run the body lines. -/
def applyHunk (commit : String) (res : List Line) (h : Hunk) :
    Except String (List Line) :=
  match h.Locations with
  | [] => .error "no location in diff hunk"
  | loc :: _ =>
    let i0 : Int := if loc.Offset - 1 = -1 then 0 else loc.Offset - 1
    (h.Data.foldlM (applyLine commit) (res, i0)).map (fun st => st.1)

/-- `applyOneParent` (apply.go:201-276). -/
def applyOneParent (file : Blame) (diff : Diff) (commit : String) :
    Except String Blame :=
  ((sortHunksDesc diff.Hunks).foldlM (applyHunk commit) file.Lines).map
    (fun res => ⟨commit, res⟩)

/-- State of the merge loop (apply.go:106-196): output buffer `res`,
output cursor `i`, and the per-parent cursors `offsets`. -/
structure MState where
  res : List Line
  i : Int
  offsets : List Int
deriving DecidableEq

/-- apply.go:142-147: whether any op of the full prefix is `'-'`. -/
def removedFromAnother (ops : List Byte) : Bool :=
  ops.contains minusB

/-- The loop of apply.go:137-159 over `ops[1:]`, advancing the non-mainline
parent cursors.  `k` is the index of the head of `rest` within `ops`. -/
def advanceOffsets (ops : List Byte) (k : Nat) (rest : List Byte)
    (offsets : List Int) : Except String (List Int) :=
  match rest with
  | [] => .ok offsets
  | v :: rest' =>
    if v = spaceB ∨ v = tabB then
      if removedFromAnother ops then advanceOffsets ops (k + 1) rest' offsets
      else advanceOffsets ops (k + 1) rest' (offsets.set k (offsets.getD k 0 + 1))
    else if v = minusB then
      advanceOffsets ops (k + 1) rest' (offsets.set k (offsets.getD k 0 - 1))
    else if v = plusB then
      advanceOffsets ops (k + 1) rest' offsets
    else
      .error "invalid patch line prefix"

/-- apply.go:169-174: `srcI := 0; for i, op := range ops { if op == ' ' {
srcI = i } }` — the last index whose op is exactly `' '` (tabs do not
count), else 0. -/
def lastSpaceIdxAux (acc : Nat) (k : Nat) : List Byte → Nat
  | [] => acc
  | v :: rest => lastSpaceIdxAux (if v = spaceB then k else acc) (k + 1) rest

/-- See `lastSpaceIdxAux`. -/
def lastSpaceIdx (ops : List Byte) : Nat :=
  lastSpaceIdxAux 0 0 ops

/-- apply.go:168-186: the attribution of a `'+'` mainline line.  `srcI` is
the last index of `ops` whose op is `' '`; index 0 (or no `' '` at all)
attributes to the merge commit itself, any other index looks up
`parents[srcI].Lines[offsets[srcI]].Commit`, aborting when the cursor is
outside that parent's lines.  The `getD` defaults are never reached:
`srcI < len(ops) = len(parents)` and the offset is bounds-checked. -/
def mergeSrc (parents : List Blame) (commit : String) (ops : List Byte)
    (offsets : List Int) : Except String String :=
  let srcI := lastSpaceIdx ops
  if srcI = 0 then .ok commit
  else
    let offset := offsets.getD srcI 0
    let lines := (parents.getD srcI default).Lines
    if offset < 0 ∨ (lines.length : Int) ≤ offset then
      .error "invalid offset for merge parent"
    else
      .ok ((lines.getD offset.toNat default).Commit)

/-- The `switch ops[0]` of the merge loop (apply.go:161-191), after the
cursor advance produced `offsets`. -/
def mergeLineCore (parents : List Blame) (commit : String) (st : MState)
    (ops data : List Byte) (offsets : List Int) : Except String MState :=
  let op0 := ops.headD 0
  if op0 = spaceB ∨ op0 = tabB then
    .ok ⟨st.res, st.i + 1, offsets⟩
  else if op0 = minusB then
    (remLine st.i st.res).map (fun r => ⟨r, st.i, offsets⟩)
  else if op0 = plusB then
    match mergeSrc parents commit ops offsets with
    | .error e => .error e
    | .ok src =>
      (addLine st.i data src st.res).map (fun r => ⟨r, st.i + 1, offsets⟩)
  else .error "invalid patch prefix"

/-- One body line of the merge loop (apply.go:122-192): empty-line and
short-line checks, the `ops[1:]` cursor advance (apply.go:137-159), then
the mainline op (`mergeLineCore`). -/
def mergeLine (parents : List Blame) (commit : String) (st : MState)
    (b : List Byte) : Except String MState :=
  if b = [] then .error "could not process patch line, it was empty"
  else if b.length < parents.length then .error "len b < len parents"
  else
    match advanceOffsets (b.take parents.length) 1
        ((b.take parents.length).drop 1) st.offsets with
    | .error e => .error e
    | .ok offsets =>
      mergeLineCore parents commit st (b.take parents.length)
        (b.drop parents.length) offsets

/-- One hunk of the merge loop (apply.go:106-196).  The Go code indexes
`h.Locations[0]` (line 110) and `h.Locations[k]` for every `k <
len(parents)` (line 119) without a preceding length check; a location list
shorter than the parents list is a runtime abort, modelled by the guard. -/
def mergeHunk (parents : List Blame) (commit : String) (res : List Line)
    (h : Hunk) : Except String (List Line) :=
  if h.Locations.length < parents.length then
    .error "h.Locations index out of range"
  else
    let off0 := (h.Locations.headD ⟨0⟩).Offset
    let i0 : Int := if off0 - 1 = -1 then 0 else off0 - 1
    let offsets := (h.Locations.take parents.length).map (fun l => l.Offset - 2)
    (h.Data.foldlM (mergeLine parents commit) ⟨res, i0, offsets⟩).map MState.res

/-- `applyMerge` (apply.go:80-199): the output starts as a copy of the
first parent's lines; hunks are applied in descending first-offset
order. -/
def applyMerge (parents : List Blame) (diff : Diff) (commit : String) :
    Except String Blame :=
  ((sortHunksDesc diff.Hunks).foldlM (mergeHunk parents commit)
      (parents.headD default).Lines).map
    (fun res => ⟨commit, res⟩)

/-- `Apply` (apply.go:69-77). -/
def Apply (parents : List Blame) (diff : Diff) (commit : String) :
    Except String Blame :=
  if parents.length = 0 then applyOneParent ⟨"", []⟩ diff commit
  else if parents.length = 1 then applyOneParent (parents.headD default) diff commit
  else applyMerge parents diff commit

/-- State-passing form of `Apply`: the result together with the post-call
state of the two by-reference arguments.  The parent blames are returned
unchanged: the output buffer is a fresh copy (`make` + `copy`,
apply.go:81-82 and 202-203), `remLine`/`addLine` rewrite only that fresh
buffer, and every scanned body line is copied (`copyBytes`,
apply.go:124/245) before being stored, so no write of the procedure
targets a parent's memory.  The diff is returned with `Hunks` sorted in
place (descending by first-location offset), which is what the caller
observes after `sort.Slice` (apply.go:100-104/221-225); both branches of
`Apply` sort before doing anything else, error or not. -/
def ApplyS (parents : List Blame) (diff : Diff) (commit : String) :
    Except String Blame × List Blame × Diff :=
  (Apply parents diff commit, parents, { diff with Hunks := sortHunksDesc diff.Hunks })

/-- Modelled from the spec: the result type of the binary-diff dispatch.
The spec's data model gives a blame the shape `(commit, is_binary, lines)`;
the `Blame` struct under `src/` carries no binary flag, and the code that
produces and routes binary blames (the diff parser and the driver of the
`incblame` package) is not under `src/`. -/
structure BlameB where
  Commit : String
  IsBinary : Bool
  Lines : List Line
deriving DecidableEq

/-- Modelled from the spec: the dispatch rule of spec 4.D.1, "If
`diff.is_binary`: return `Blame { commit, is_binary: true, lines: [] }`,
ignoring parents."  This step is absent from `src/` (the `Apply` of
apply.go never consults a binary flag); it is modelled here faithfully to
the spec's words, falling through to `Apply` for non-binary diffs. -/
def applyDispatch (parents : List Blame) (diff : Diff) (commit : String) :
    Except String BlameB :=
  if diff.IsBinary then .ok ⟨commit, true, []⟩
  else (Apply parents diff commit).map (fun b => ⟨b.Commit, false, b.Lines⟩)

/-- `true` exactly on `Except.error` (a fatal apply, i.e. a Go panic). -/
def isError {α : Type} : Except String α → Bool
  | .error _ => true
  | .ok _ => false

/-- The mainline reduction of a combined-diff hunk, used to state claim C6:
keep the hunk's first location and reduce each body line's `lenp`-character
prefix to its mainline op (`b[0] :: b[lenp:]`). -/
def reduceHunk (lenp : Nat) (h : Hunk) : Hunk :=
  ⟨[h.Locations.headD ⟨0⟩], h.Data.map (fun b => b.headD 0 :: b.drop lenp)⟩

/-- Mainline reduction of a whole diff (claim C6). -/
def reduceDiff (lenp : Nat) (d : Diff) : Diff :=
  ⟨d.Hunks.map (reduceHunk lenp), d.IsBinary⟩

/-- Ascending insertion by first-location offset (for the spec's reference
algorithm of 4.D.2, claim C5). -/
def insertHunkAsc (h : Hunk) : List Hunk → List Hunk
  | [] => [h]
  | h' :: rest =>
    if hunkKey h < hunkKey h' then h :: h' :: rest
    else h' :: insertHunkAsc h rest

/-- Ascending sort by first-location offset (spec 4.D.2: "Sort hunks
ascending by first-location offset"). -/
def sortHunksAsc : List Hunk → List Hunk
  | [] => []
  | h :: rest => insertHunkAsc h (sortHunksAsc rest)

/-- One body line of the spec's reference single-parent algorithm, written
from the words of spec 4.D.2 (claim C5).  State is `(old_index, output)`:
context appends `parent.lines[old_index]` and advances the cursor, `'-'`
advances the cursor, `'+'` appends a new line owned by `commit_hash`, the
no-newline sentinel is skipped, anything else is an error (spec 4.D.4 makes
out-of-range cursor accesses fatal). -/
def specLine (parent : List Line) (commit : String) (st : Nat × List Line)
    (b : List Byte) : Except String (Nat × List Line) :=
  match b with
  | [] => .error "empty body line"
  | op :: data =>
    if op = spaceB ∨ op = tabB then
      match parent.get? st.1 with
      | some l => .ok (st.1 + 1, st.2 ++ [l])
      | none => .error "context beyond parent"
    else if op = minusB then
      if st.1 < parent.length then .ok (st.1 + 1, st.2)
      else .error "deletion beyond parent"
    else if op = plusB then
      .ok (st.1, st.2 ++ [⟨data, commit⟩])
    else if op = backslashB then
      if op :: data = noNewline then .ok st
      else .error "invalid body line"
    else .error "invalid op"

/-- One hunk of the spec's reference algorithm (spec 4.D.2 steps 1-2):
`j = max(0, offset - 1)`, copy `parent.lines[old_index .. j]` verbatim,
set the cursor to `j`, then run the body lines. -/
def specHunk (parent : List Line) (commit : String) (st : Nat × List Line)
    (h : Hunk) : Except String (Nat × List Line) :=
  match h.Locations with
  | [] => .error "no location"
  | loc :: _ =>
    let j : Nat := (max 0 (loc.Offset - 1)).toNat
    h.Data.foldlM (specLine parent commit) (j, st.2 ++ (parent.take j).drop st.1)

/-- The spec's reference single-parent algorithm (spec 4.D.2, claim C5):
sort ascending, run the hunks with the cursor starting at 0, then copy
`parent.lines[old_index ..]`. -/
def applyOneParentSpec (file : Blame) (diff : Diff) (commit : String) :
    Except String Blame :=
  ((sortHunksAsc diff.Hunks).foldlM (specHunk file.Lines commit) (0, [])).map
    (fun st => ⟨commit, st.2 ++ file.Lines.drop st.1⟩)

/-- Does a body line consume one parent line (context or deletion)? -/
def consumes (b : List Byte) : Bool :=
  decide (b.headD 0 = spaceB) || decide (b.headD 0 = tabB) ||
    decide (b.headD 0 = minusB)

/-- Number of parent lines a hunk body consumes. -/
def consumedOf (body : List (List Byte)) : Nat :=
  (body.filter consumes).length

/-- The lines a hunk body produces when run against the consumed segment
`seg` of the parent: context keeps the segment line, `'-'` drops it, `'+'`
produces a new line owned by `commit`, the sentinel produces nothing. -/
def outOf (commit : String) : List (List Byte) → List Line → List Line
  | [], _ => []
  | b :: body, seg =>
    if b.headD 0 = spaceB ∨ b.headD 0 = tabB then
      match seg with
      | l :: seg' => l :: outOf commit body seg'
      | [] => []
    else if b.headD 0 = minusB then
      match seg with
      | _ :: seg' => outOf commit body seg'
      | [] => []
    else if b.headD 0 = plusB then
      ⟨b.drop 1, commit⟩ :: outOf commit body seg
    else outOf commit body seg

/-- A single body line is well formed: nonempty, with a recognised op or
exactly the no-newline sentinel. -/
def wfLine (b : List Byte) : Bool :=
  decide (b ≠ []) &&
    (decide (b.headD 0 = spaceB) || decide (b.headD 0 = tabB) ||
      decide (b.headD 0 = minusB) || decide (b.headD 0 = plusB) ||
      decide (b = noNewline))

/-- All body lines of a hunk are well formed. -/
def wfBody (body : List (List Byte)) : Bool :=
  body.all wfLine

/-- 0-based start index of a hunk in the parent: `max 0 (offset - 1)`
(offsets 0 and 1 both start at index 0, matching apply.go:110-113 and spec
4.D.2 step 1). -/
def hunkStart (h : Hunk) : Nat :=
  (max 0 (hunkKey h - 1)).toNat

/-- One past the last parent index the hunk consumes. -/
def hunkEnd (h : Hunk) : Nat :=
  hunkStart h + consumedOf h.Data

/-- A hunk is well formed for a parent of `plen` lines given that indices
below `lo` are already consumed: it has a location, a nonnegative offset, a
well-formed body, and its consumed region `[hunkStart, hunkEnd)` lies in
`[lo, plen]`. -/
def wfHunk (plen lo : Nat) (h : Hunk) : Bool :=
  decide (h.Locations ≠ []) && decide (0 ≤ hunkKey h) && wfBody h.Data &&
    decide (lo ≤ hunkStart h) && decide (hunkEnd h ≤ plen)

/-- An ascending hunk list is pairwise disjoint and in range. -/
def hunksSeq (plen : Nat) : Nat → List Hunk → Bool
  | _, [] => true
  | lo, h :: rest => wfHunk plen lo h && hunksSeq plen (hunkEnd h) rest

/-- Strictly increasing first-location offsets. -/
def keysStrictAsc : List Hunk → Bool
  | [] => true
  | [_] => true
  | h :: h' :: rest => decide (hunkKey h < hunkKey h') && keysStrictAsc (h' :: rest)

/-- Claim C5's hypothesis: the diff's hunks, sorted ascending, have strictly
increasing first-location offsets and are pairwise disjoint and in range
for the parent. -/
def wfDisjoint (file : Blame) (d : Diff) : Bool :=
  keysStrictAsc (sortHunksAsc d.Hunks) &&
    hunksSeq file.Lines.length 0 (sortHunksAsc d.Hunks)

/-- The common normal form both apply algorithms produce on a disjoint
in-range hunk sequence: untouched parent lines before each hunk, the
hunk's body output against its consumed segment, and the untouched tail. -/
def asmOut (commit : String) (P : List Line) (lo : Nat) : List Hunk → List Line
  | [] => P.drop lo
  | h :: hs =>
    (P.take (hunkStart h)).drop lo ++
      outOf commit h.Data ((P.take (hunkEnd h)).drop (hunkStart h)) ++
      asmOut commit P (hunkEnd h) hs

/-- `noNewline` spells `\ No newline at end of file`. -/
theorem noNewline_bytes : noNewline = strBytes "\\ No newline at end of file" := by
  decide

/-- `insertHunkDesc` inserts: the output is a permutation of the element
and the input. -/
theorem insertHunkDesc_perm (h : Hunk) (l : List Hunk) :
    List.Perm (insertHunkDesc h l) (h :: l) := by
  induction l with
  | nil => simp [insertHunkDesc]
  | cons h' rest ih =>
    simp only [insertHunkDesc]
    split
    · exact List.Perm.refl _
    · exact (ih.cons h').trans (List.Perm.swap h h' rest)

/-- Sorting keeps the multiset of hunks. -/
theorem sortHunksDesc_perm (l : List Hunk) : List.Perm (sortHunksDesc l) l := by
  induction l with
  | nil => simp [sortHunksDesc]
  | cons h rest ih =>
    exact (insertHunkDesc_perm h (sortHunksDesc rest)).trans (ih.cons h)

section SanityChecks

/-- Spec scenario 1 (creation): commit `A` adds `x\ny\n`. -/
example : Apply [] ⟨[⟨[⟨0⟩], [[plusB, 120], [plusB, 121]]⟩], false⟩ "A" =
    .ok ⟨"A", [⟨[120], "A"⟩, ⟨[121], "A"⟩]⟩ := by decide

/-- Spec scenario 3 (middle deletion). -/
example : Apply [⟨"B", [⟨[120], "A"⟩, ⟨[121], "A"⟩, ⟨[122], "B"⟩]⟩]
    ⟨[⟨[⟨2⟩], [[minusB, 121]]⟩], false⟩ "C" =
    .ok ⟨"C", [⟨[120], "A"⟩, ⟨[122], "B"⟩]⟩ := by decide

/-- Spec scenario 5 (clean merge): line `a` comes from parent `E`
(mainline context), line `b` from parent `F` (attributed through the
last-`' '`-column rule). -/
example : Apply
    [⟨"E", [⟨[97], "E"⟩, ⟨[120], "A"⟩, ⟨[121], "A"⟩]⟩,
     ⟨"F", [⟨[120], "A"⟩, ⟨[121], "A"⟩, ⟨[98], "F"⟩]⟩]
    ⟨[⟨[⟨1⟩, ⟨1⟩],
       [[spaceB, plusB, 97], [spaceB, spaceB, 120], [spaceB, spaceB, 121],
        [plusB, spaceB, 98]]⟩], false⟩ "M" =
    .ok ⟨"M", [⟨[97], "E"⟩, ⟨[120], "A"⟩, ⟨[121], "A"⟩, ⟨[98], "F"⟩]⟩ := by decide

end SanityChecks

/-- Claim C7: applying a diff with no hunks to a single parent `p` yields a
blame whose `Lines` equal `p.Lines` line by line (same bytes, same per-line
commits) and whose `Commit` field is the new commit. -/
theorem c7_apply_empty_diff (p : Blame) (d : Diff) (c : String)
    (h : d.Hunks = []) : Apply [p] d c = .ok ⟨c, p.Lines⟩ := by
  simp [Apply, applyOneParent, h, sortHunksDesc, Except.map, pure, Except.pure]

/-- Witness for C7. -/
theorem c7_apply_empty_diff_w :
    Apply [⟨"A", [⟨[120], "A"⟩]⟩] ⟨[], false⟩ "C" =
      .ok ⟨"C", [⟨[120], "A"⟩]⟩ :=
  c7_apply_empty_diff ⟨"A", [⟨[120], "A"⟩]⟩ ⟨[], false⟩ "C" rfl

/-- Claim C8: for a diff marked binary the dispatch returns a blame with
the given commit, the binary flag set and no lines, and the parents are
not consulted (any two parent lists give the same result). -/
theorem c8_binary_dispatch (ps ps' : List Blame) (d : Diff) (c : String)
    (h : d.IsBinary = true) :
    applyDispatch ps d c = .ok ⟨c, true, []⟩ ∧
      applyDispatch ps d c = applyDispatch ps' d c := by
  simp [applyDispatch, h]

/-- Witness for C8. -/
theorem c8_binary_dispatch_w :
    applyDispatch [⟨"A", [⟨[120], "A"⟩]⟩] ⟨[], true⟩ "C" = .ok ⟨"C", true, []⟩ ∧
      applyDispatch [⟨"A", [⟨[120], "A"⟩]⟩] ⟨[], true⟩ "C" =
        applyDispatch [] ⟨[], true⟩ "C" :=
  c8_binary_dispatch [⟨"A", [⟨[120], "A"⟩]⟩] [] ⟨[], true⟩ "C" rfl

/-- Claim C4 counterexample: `Apply` sorts `diff.Hunks` in place
(descending by first-location offset), so the caller-visible diff changes:
with two empty-bodied hunks at offsets 1 and 5, the post-call hunk order
is reversed. -/
theorem c4_diff_mutated :
    (ApplyS [] ⟨[⟨[⟨1⟩], []⟩, ⟨[⟨5⟩], []⟩], false⟩ "C").2.2 ≠
      (⟨[⟨[⟨1⟩], []⟩, ⟨[⟨5⟩], []⟩], false⟩ : Diff) := by decide

/-- Claim C4 as amended: the result of `Apply` is a function of the
argument values and the parent blames are left unchanged, but the call
reorders `diff.Hunks` in place into descending first-location-offset order
(a permutation of the original hunks). -/
theorem c4_apply_frame (ps : List Blame) (d : Diff) (c : String) :
    (ApplyS ps d c).1 = Apply ps d c ∧
      (ApplyS ps d c).2.1 = ps ∧
      (ApplyS ps d c).2.2 = { d with Hunks := sortHunksDesc d.Hunks } ∧
      List.Perm (ApplyS ps d c).2.2.Hunks d.Hunks :=
  ⟨rfl, rfl, rfl, sortHunksDesc_perm d.Hunks⟩

/-- Claim C9: the post-call state of the parent blames equals their
pre-call state: the output buffer is a fresh copy of the mainline parent's
lines (apply.go:81-82, 202-203), `remLine`/`addLine` rebuild only that
buffer, and scanned hunk bytes are copied (`copyBytes`, apply.go:124/245)
before being stored, so no write of `Apply` targets a parent blame. -/
theorem c9_parents_unchanged (ps : List Blame) (d : Diff) (c : String) :
    (ApplyS ps d c).2.1 = ps := rfl

/-- Taking at least one element keeps the head. -/
theorem headD_take (b : List Byte) (n : Nat) (hn : 1 ≤ n) :
    (b.take n).headD 0 = b.headD 0 := by
  cases b with
  | nil => simp
  | cons x xs =>
    cases n with
    | zero => omega
    | succ m => simp

/-- Unfolding `mergeLine` when the two length guards pass. -/
theorem mergeLine_eq (ps : List Blame) (c : String) (st : MState)
    (b : List Byte) (hne : b ≠ []) (hlb : ¬ b.length < ps.length) :
    mergeLine ps c st b =
      match advanceOffsets (b.take ps.length) 1 ((b.take ps.length).drop 1)
          st.offsets with
      | .error e => .error e
      | .ok offsets =>
          mergeLineCore ps c st (b.take ps.length) (b.drop ps.length)
            offsets := by
  simp only [mergeLine, if_neg hne, if_neg hlb]

/-- A `'\'` anywhere in the non-mainline ops makes the cursor-advance loop
abort (apply.go:156-158). -/
theorem advanceOffsets_backslash (ops rest : List Byte) (k : Nat)
    (offs : List Int) (hmem : backslashB ∈ rest) :
    isError (advanceOffsets ops k rest offs) = true := by
  induction rest generalizing k offs with
  | nil => simp at hmem
  | cons v rest ih =>
    have hvrest : v = backslashB ∨ backslashB ∈ rest := by
      rcases List.mem_cons.mp hmem with h | h
      · exact Or.inl h.symm
      · exact Or.inr h
    simp only [advanceOffsets]
    by_cases h1 : v = spaceB ∨ v = tabB
    · have hm : backslashB ∈ rest := by
        rcases hvrest with h | h
        · subst h; exact absurd h1 (by decide)
        · exact h
      rw [if_pos h1]
      by_cases h2 : removedFromAnother ops = true
      · rw [if_pos h2]; exact ih (k + 1) offs hm
      · rw [if_neg h2]; exact ih (k + 1) _ hm
    · rw [if_neg h1]
      by_cases h2 : v = minusB
      · have hm : backslashB ∈ rest := by
          rcases hvrest with h | h
          · subst h; exact absurd h2 (by decide)
          · exact h
        rw [if_pos h2]; exact ih (k + 1) _ hm
      · rw [if_neg h2]
        by_cases h3 : v = plusB
        · have hm : backslashB ∈ rest := by
            rcases hvrest with h | h
            · subst h; exact absurd h3 (by decide)
            · exact h
          rw [if_pos h3]; exact ih (k + 1) offs hm
        · rw [if_neg h3]; rfl

/-- Claim C1: in a merge apply, a hunk's body runs with the per-parent
cursors initialised to `Locations[k].Offset - 2` (first conjunct,
apply.go:115-120), and a body line whose mainline op is `'+'` inserts at
the output cursor a line whose commit is determined by the last index
`src_k` of the op prefix holding `' '`: the merge commit itself when
`src_k = 0` or no `' '` exists, else `parents[src_k].Lines[offsets[src_k]]
.Commit` with the cursors already advanced for this body line, provided
that cursor is a valid index (second conjunct, apply.go:168-188). -/
theorem c1_merge_plus_attribution :
    (∀ (ps : List Blame) (c : String) (res : List Line) (h : Hunk),
        ¬ h.Locations.length < ps.length →
        mergeHunk ps c res h =
          (h.Data.foldlM (mergeLine ps c)
            ⟨res,
              if (h.Locations.headD ⟨0⟩).Offset - 1 = -1 then 0
              else (h.Locations.headD ⟨0⟩).Offset - 1,
              (h.Locations.take ps.length).map (fun l => l.Offset - 2)⟩).map
            MState.res) ∧
    (∀ (ps : List Blame) (c : String) (st : MState) (b : List Byte)
        (offs : List Int) (k : Nat) (src : String),
        2 ≤ ps.length → ps.length ≤ b.length → b.headD 0 = plusB →
        advanceOffsets (b.take ps.length) 1 ((b.take ps.length).drop 1)
            st.offsets = .ok offs →
        k = lastSpaceIdx (b.take ps.length) →
        (k ≠ 0 → 0 ≤ offs.getD k 0 ∧
          offs.getD k 0 < ((ps.getD k default).Lines.length : Int)) →
        0 ≤ st.i → st.i ≤ (st.res.length : Int) →
        src = (if k = 0 then c
          else ((ps.getD k default).Lines.getD (offs.getD k 0).toNat
            default).Commit) →
        mergeLine ps c st b =
          .ok ⟨st.res.take st.i.toNat ++ ⟨b.drop ps.length, src⟩ ::
              st.res.drop st.i.toNat, st.i + 1, offs⟩) := by
  constructor
  · intro ps c res h hlen
    unfold mergeHunk
    rw [if_neg hlen]
  · intro ps c st b offs k src h2 hlb hop hadv hk hval hi0 hilen hsrc
    have hlb0 : 0 < b.length := by omega
    have hbne : b ≠ [] := by
      intro he; rw [he] at hlb0; simp at hlb0
    rw [mergeLine_eq ps c st b hbne (by omega), hadv]
    have hops : (b.take ps.length).headD 0 = plusB := by
      rw [headD_take b ps.length (by omega)]; exact hop
    simp only [mergeLineCore, hops]
    rw [if_neg (by decide : ¬(plusB = spaceB ∨ plusB = tabB)),
      if_neg (by decide : ¬plusB = minusB),
      if_true]
    have haddr : ¬(st.i < 0 ∨ (st.res.length : Int) < st.i) := by omega
    by_cases hk0 : k = 0
    · rw [hsrc, if_pos hk0]
      simp only [mergeSrc, ← hk, if_pos hk0]
      simp only [addLine, if_neg haddr, Except.map]
    · rw [hsrc, if_neg hk0]
      have hval' := hval hk0
      simp only [mergeSrc, ← hk, if_neg hk0]
      rw [if_neg (by omega :
        ¬(offs.getD k 0 < 0 ∨
          (((ps.getD k default).Lines.length : Int)) ≤ offs.getD k 0))]
      simp only [addLine, if_neg haddr, Except.map]

/-- Witness for C1: a two-parent merge, one `'+ '` body line; the cursor
for parent 1 starts at `-1`, is advanced to `0` by this line's `' '` in
column 1, and the inserted line is attributed to parent 1's line 0, owned
by commit `B`. -/
theorem c1_merge_plus_attribution_w :
    mergeHunk [⟨"A", [⟨[97], "A"⟩]⟩, ⟨"B", [⟨[98], "B"⟩]⟩] "M" []
        ⟨[⟨1⟩, ⟨1⟩], [[plusB, spaceB, 120]]⟩ =
      .ok [⟨[120], "B"⟩] ∧
    mergeLine [⟨"A", [⟨[97], "A"⟩]⟩, ⟨"B", [⟨[98], "B"⟩]⟩] "M"
        ⟨[], 0, [-1, -1]⟩ [plusB, spaceB, 120] =
      .ok ⟨[⟨[120], "B"⟩], 1, [-1, 0]⟩ :=
  ⟨c1_merge_plus_attribution.1 [⟨"A", [⟨[97], "A"⟩]⟩, ⟨"B", [⟨[98], "B"⟩]⟩]
      "M" [] ⟨[⟨1⟩, ⟨1⟩], [[plusB, spaceB, 120]]⟩ (by decide),
    c1_merge_plus_attribution.2 [⟨"A", [⟨[97], "A"⟩]⟩, ⟨"B", [⟨[98], "B"⟩]⟩]
      "M" ⟨[], 0, [-1, -1]⟩ [plusB, spaceB, 120] [-1, 0] 1 "B" (by decide)
      (by decide) (by decide) (by decide) (by decide) (by decide) (by decide)
      (by decide) (by decide)⟩

/-- Claim C10: the no-newline sentinel is accepted only by the
single-parent loop, which skips the line leaving state unchanged (first
conjunct, apply.go:259-263); any other line starting with `'\'` is fatal
there (second conjunct, apply.go:264); and in a merge a `'\'` anywhere in
the op prefix is fatal (third conjunct: apply.go:156-158 for non-mainline
columns, apply.go:189-190 for the mainline column). -/
theorem c10_backslash_sentinel :
    (∀ (c : String) (st : List Line × Int),
        applyLine c st noNewline = .ok st) ∧
    (∀ (c : String) (st : List Line × Int) (b : List Byte),
        b.headD 0 = backslashB → b ≠ noNewline →
        isError (applyLine c st b) = true) ∧
    (∀ (ps : List Blame) (c : String) (st : MState) (b : List Byte),
        2 ≤ ps.length → backslashB ∈ b.take ps.length →
        isError (mergeLine ps c st b) = true) := by
  refine ⟨?_, ?_, ?_⟩
  · intro c st
    rfl
  · intro c st b hop hnn
    match b with
    | [] => simp [backslashB] at hop
    | o :: d =>
      simp only [List.headD_cons] at hop
      subst hop
      simp only [applyLine]
      rw [if_neg (by decide : ¬(backslashB = spaceB ∨ backslashB = tabB)),
        if_neg (by decide : ¬backslashB = minusB),
        if_neg (by decide : ¬backslashB = plusB),
        if_true, if_neg hnn]
      rfl
  · intro ps c st b h2 hmem
    have hbne : b ≠ [] := by
      intro he; rw [he] at hmem; simp at hmem
    by_cases hlb : b.length < ps.length
    · simp only [mergeLine, if_neg hbne, if_pos hlb]; rfl
    · rw [mergeLine_eq ps c st b hbne hlb]
      cases hadv : advanceOffsets (b.take ps.length) 1
          ((b.take ps.length).drop 1) st.offsets with
      | error e => rfl
      | ok offs =>
        by_cases hdrop : backslashB ∈ (b.take ps.length).drop 1
        · have := advanceOffsets_backslash (b.take ps.length)
            ((b.take ps.length).drop 1) 1 st.offsets hdrop
          rw [hadv] at this
          simp [isError] at this
        · cases hops : b.take ps.length with
          | nil => rw [hops] at hmem; simp at hmem
          | cons o tail =>
            rw [hops] at hmem hdrop
            simp only [List.drop_succ_cons, List.drop_zero] at hdrop
            have ho : o = backslashB := by
              rcases List.mem_cons.mp hmem with h | h
              · exact h.symm
              · exact absurd h hdrop
            subst ho
            simp only [mergeLineCore, hops, List.headD_cons]
            rw [if_neg (by decide : ¬(backslashB = spaceB ∨ backslashB = tabB)),
              if_neg (by decide : ¬backslashB = minusB),
              if_neg (by decide : ¬backslashB = plusB)]
            rfl

/-- Witness for C10 (conjuncts two and three have hypotheses): a `'\'`
line that is not the sentinel is fatal for the single-parent loop, and a
sentinel line inside a two-parent merge hunk is fatal. -/
theorem c10_backslash_sentinel_w :
    isError (applyLine "C" ([], 0) [backslashB, 120]) = true ∧
    isError (mergeLine [⟨"A", []⟩, ⟨"B", []⟩] "C" ⟨[], 0, [-1, -1]⟩
      noNewline) = true :=
  ⟨c10_backslash_sentinel.2.1 "C" ([], 0) [backslashB, 120] (by decide)
      (by decide),
    c10_backslash_sentinel.2.2 [⟨"A", []⟩, ⟨"B", []⟩] "C" ⟨[], 0, [-1, -1]⟩
      noNewline (by decide) (by decide)⟩

/-- Claim C3 counterexample: a hunk whose single body line is the context
line `' x'` at offset 1, applied to a parent with no lines, refers to a
line outside the blame, yet `Apply` silently returns an (empty) blame
instead of an error: the context op only advances the cursor
(apply.go:250-252) and is never bounds-checked. -/
theorem c3_out_of_range_context_ok :
    Apply [⟨"A", []⟩] ⟨[⟨[⟨1⟩], [[spaceB, 120]]⟩], false⟩ "C" =
      .ok ⟨"C", []⟩ := by decide

/-- Claim C3 as amended: out-of-range deletions and insertions,
out-of-range merge-attribution lookups and unknown op prefixes are fatal
(conjuncts 1-3 and 5-7), but an out-of-range *context* body line is
silently skipped — the cursor advances with no bounds check (conjunct 4) —
so `Apply` can return a blame, even an empty one, for a diff whose context
lines refer outside the parent. -/
theorem c3_fatal_out_of_range :
    (∀ (c : String) (st : List Line × Int) (d : List Byte),
        (st.2 < 0 ∨ (st.1.length : Int) ≤ st.2) →
        isError (applyLine c st (minusB :: d)) = true) ∧
    (∀ (c : String) (st : List Line × Int) (d : List Byte),
        (st.2 < 0 ∨ (st.1.length : Int) < st.2) →
        isError (applyLine c st (plusB :: d)) = true) ∧
    (∀ (c : String) (st : List Line × Int) (op : Byte) (d : List Byte),
        ¬(op = spaceB ∨ op = tabB ∨ op = minusB ∨ op = plusB ∨
          op = backslashB) →
        isError (applyLine c st (op :: d)) = true) ∧
    (∀ (c : String) (st : List Line × Int) (d : List Byte),
        applyLine c st (spaceB :: d) = .ok (st.1, st.2 + 1)) ∧
    (∀ (ps : List Blame) (c : String) (st : MState) (b : List Byte),
        2 ≤ ps.length → ps.length ≤ b.length → b.headD 0 = minusB →
        (st.i < 0 ∨ (st.res.length : Int) ≤ st.i) →
        isError (mergeLine ps c st b) = true) ∧
    (∀ (ps : List Blame) (c : String) (st : MState) (b : List Byte)
        (offs : List Int),
        2 ≤ ps.length → ps.length ≤ b.length → b.headD 0 = plusB →
        advanceOffsets (b.take ps.length) 1 ((b.take ps.length).drop 1)
            st.offsets = .ok offs →
        lastSpaceIdx (b.take ps.length) ≠ 0 →
        (offs.getD (lastSpaceIdx (b.take ps.length)) 0 < 0 ∨
          (((ps.getD (lastSpaceIdx (b.take ps.length)) default).Lines.length :
            Int)) ≤ offs.getD (lastSpaceIdx (b.take ps.length)) 0) →
        isError (mergeLine ps c st b) = true) ∧
    (∀ (ps : List Blame) (c : String) (st : MState) (b : List Byte),
        2 ≤ ps.length → ps.length ≤ b.length →
        ¬(b.headD 0 = spaceB ∨ b.headD 0 = tabB ∨ b.headD 0 = minusB ∨
          b.headD 0 = plusB) →
        isError (mergeLine ps c st b) = true) := by
  refine ⟨?_, ?_, ?_, ?_, ?_, ?_, ?_⟩
  · intro c st d hcond
    simp only [applyLine]
    rw [if_neg (by decide : ¬(minusB = spaceB ∨ minusB = tabB)),
      if_true]
    simp only [remLine, if_pos hcond, Except.map, isError]
  · intro c st d hcond
    simp only [applyLine]
    rw [if_neg (by decide : ¬(plusB = spaceB ∨ plusB = tabB)),
      if_neg (by decide : ¬plusB = minusB), if_true]
    simp only [addLine, if_pos hcond, Except.map, isError]
  · intro c st op d hcond
    push_neg at hcond
    obtain ⟨h1, h2, h3, h4, h5⟩ := hcond
    simp only [applyLine]
    rw [if_neg (by tauto : ¬(op = spaceB ∨ op = tabB)), if_neg h3, if_neg h4,
      if_neg h5]
    rfl
  · intro c st d
    rfl
  · intro ps c st b h2 hlb hop hcond
    have hbne : b ≠ [] := by
      intro he; rw [he] at hlb; simp only [List.length_nil] at hlb; omega
    rw [mergeLine_eq ps c st b hbne (by omega)]
    cases hadv : advanceOffsets (b.take ps.length) 1
        ((b.take ps.length).drop 1) st.offsets with
    | error e => rfl
    | ok offs =>
      have hops : (b.take ps.length).headD 0 = minusB := by
        rw [headD_take b ps.length (by omega)]; exact hop
      simp only [mergeLineCore, hops]
      rw [if_neg (by decide : ¬(minusB = spaceB ∨ minusB = tabB)), if_true]
      simp only [remLine, if_pos hcond, Except.map, isError]
  · intro ps c st b offs h2 hlb hop hadv hk hcond
    have hbne : b ≠ [] := by
      intro he; rw [he] at hlb; simp only [List.length_nil] at hlb; omega
    rw [mergeLine_eq ps c st b hbne (by omega), hadv]
    have hops : (b.take ps.length).headD 0 = plusB := by
      rw [headD_take b ps.length (by omega)]; exact hop
    simp only [mergeLineCore, hops]
    rw [if_neg (by decide : ¬(plusB = spaceB ∨ plusB = tabB)),
      if_neg (by decide : ¬plusB = minusB), if_true]
    simp only [mergeSrc, if_neg hk, if_pos hcond]
    rfl
  · intro ps c st b h2 hlb hcond
    push_neg at hcond
    obtain ⟨h1, h2', h3, h4⟩ := hcond
    have hbne : b ≠ [] := by
      intro he; rw [he] at hlb; simp only [List.length_nil] at hlb; omega
    rw [mergeLine_eq ps c st b hbne (by omega)]
    cases hadv : advanceOffsets (b.take ps.length) 1
        ((b.take ps.length).drop 1) st.offsets with
    | error e => rfl
    | ok offs =>
      have hh := headD_take b ps.length (by omega)
      simp only [mergeLineCore, hh]
      rw [if_neg (by tauto : ¬(b.headD 0 = spaceB ∨ b.headD 0 = tabB)),
        if_neg h3, if_neg h4]
      rfl

/-- Witness for C3's amended theorem: concrete fatal runs for conjuncts
1-3 and 5-7 (conjunct 4 is hypothesis-free). -/
theorem c3_fatal_out_of_range_w :
    isError (applyLine "C" ([], 0) [minusB]) = true ∧
    isError (applyLine "C" ([], 5) [plusB]) = true ∧
    isError (applyLine "C" ([], 0) [120]) = true ∧
    isError (mergeLine [⟨"A", []⟩, ⟨"B", []⟩] "C" ⟨[], 0, [-1, -1]⟩
      [minusB, spaceB]) = true ∧
    isError (mergeLine [⟨"A", []⟩, ⟨"B", []⟩] "C" ⟨[], 0, [-1, -1]⟩
      [plusB, spaceB]) = true ∧
    isError (mergeLine [⟨"A", []⟩, ⟨"B", []⟩] "C" ⟨[], 0, [-1, -1]⟩
      [120, spaceB]) = true :=
  ⟨c3_fatal_out_of_range.1 "C" ([], 0) [] (by decide),
    c3_fatal_out_of_range.2.1 "C" ([], 5) [] (by decide),
    c3_fatal_out_of_range.2.2.1 "C" ([], 0) 120 [] (by decide),
    c3_fatal_out_of_range.2.2.2.2.1 [⟨"A", []⟩, ⟨"B", []⟩] "C"
      ⟨[], 0, [-1, -1]⟩ [minusB, spaceB] (by decide) (by decide) (by decide)
      (by decide),
    c3_fatal_out_of_range.2.2.2.2.2.1 [⟨"A", []⟩, ⟨"B", []⟩] "C"
      ⟨[], 0, [-1, -1]⟩ [plusB, spaceB] [-1, 0] (by decide) (by decide)
      (by decide) (by decide) (by decide) (by decide),
    c3_fatal_out_of_range.2.2.2.2.2.2 [⟨"A", []⟩, ⟨"B", []⟩] "C"
      ⟨[], 0, [-1, -1]⟩ [120, spaceB] (by decide) (by decide) (by decide)⟩

/-- Invariant preservation through an `Except` fold. -/
theorem foldlM_inv {σ α : Type} (f : σ → α → Except String σ) (Q : σ → Prop)
    (hf : ∀ s a, Q s → ∀ s', f s a = .ok s' → Q s') :
    ∀ (l : List α) (s s' : σ), Q s → l.foldlM f s = .ok s' → Q s' := by
  intro l
  induction l with
  | nil =>
    intro s s' hs h
    rw [List.foldlM_nil] at h
    cases h
    exact hs
  | cons a l ih =>
    intro s s' hs h
    rw [List.foldlM_cons] at h
    cases hfa : f s a with
    | error e =>
      rw [hfa] at h
      exact Except.noConfusion h
    | ok s2 =>
      rw [hfa] at h
      exact ih s2 s' (hf s a hs s2 hfa) h

/-- Every line surviving `remLine` was in the input. -/
theorem remLine_subset (i : Int) (res res' : List Line)
    (h : remLine i res = .ok res') : ∀ l ∈ res', l ∈ res := by
  unfold remLine at h
  split at h
  · exact Except.noConfusion h
  · cases h
    intro l hl
    rcases List.mem_append.mp hl with hl | hl
    · exact List.take_subset _ _ hl
    · exact List.drop_subset _ _ hl

/-- Every line of an `addLine` result was in the input or is the inserted
line. -/
theorem addLine_mem (i : Int) (data : List Byte) (c : String)
    (res res' : List Line) (h : addLine i data c res = .ok res') :
    ∀ l ∈ res', l ∈ res ∨ l = ⟨data, c⟩ := by
  unfold addLine at h
  split at h
  · exact Except.noConfusion h
  · cases h
    intro l hl
    rcases List.mem_append.mp hl with hl | hl
    · exact Or.inl (List.take_subset _ _ hl)
    · rcases List.mem_cons.mp hl with hl | hl
      · exact Or.inr hl
      · exact Or.inl (List.drop_subset _ _ hl)

/-- `lastSpaceIdxAux` returns the accumulator or an index of the scanned
range. -/
theorem lastSpaceIdxAux_bound (l : List Byte) :
    ∀ (acc k : Nat), lastSpaceIdxAux acc k l = acc ∨
      (k ≤ lastSpaceIdxAux acc k l ∧ lastSpaceIdxAux acc k l < k + l.length) := by
  induction l with
  | nil => intro acc k; exact Or.inl rfl
  | cons v rest ih =>
    intro acc k
    simp only [lastSpaceIdxAux]
    rcases ih (if v = spaceB then k else acc) (k + 1) with h | h
    · rw [h]
      split
      · right; constructor
        · exact Nat.le_refl k
        · simp only [List.length_cons]; omega
      · exact Or.inl rfl
    · right
      constructor
      · omega
      · simp only [List.length_cons]; omega

/-- The last-`' '` index is 0 or a valid index of `ops`. -/
theorem lastSpaceIdx_bound (ops : List Byte) :
    lastSpaceIdx ops = 0 ∨ lastSpaceIdx ops < ops.length := by
  rcases lastSpaceIdxAux_bound ops 0 0 with h | h
  · exact Or.inl h
  · right; unfold lastSpaceIdx; omega

/-- An in-range `getD` returns a member of the list. -/
theorem getD_mem_of_lt {α : Type} (l : List α) (n : Nat) (d : α)
    (hn : n < l.length) : l.getD n d ∈ l := by
  rw [List.getD_eq_getElem l d hn]
  exact List.getElem_mem hn

/-- A successful merge attribution yields the merge commit or the commit
of some line of some parent. -/
theorem mergeSrc_ok (ps : List Blame) (c : String) (ops : List Byte)
    (offs : List Int) (src : String) (hlen : ops.length = ps.length)
    (h : mergeSrc ps c ops offs = .ok src) :
    src = c ∨ ∃ p ∈ ps, ∃ l2 ∈ p.Lines, l2.Commit = src := by
  simp only [mergeSrc] at h
  split at h
  · cases h; exact Or.inl rfl
  · rename_i hk0
    split at h
    · exact Except.noConfusion h
    · cases h
      right
      rename_i hrange
      push_neg at hrange
      have hklt : lastSpaceIdx ops < ps.length := by
        rcases lastSpaceIdx_bound ops with h0 | h0
        · exact absurd h0 hk0
        · omega
      refine ⟨ps.getD (lastSpaceIdx ops) default, getD_mem_of_lt _ _ _ hklt, ?_⟩
      exact ⟨(ps.getD (lastSpaceIdx ops) default).Lines.getD
        (offs.getD (lastSpaceIdx ops) 0).toNat default,
        getD_mem_of_lt _ _ _ (by omega), rfl⟩

/-- One single-parent body line only keeps input lines or adds lines owned
by the new commit. -/
theorem applyLine_inv (c : String) (st st' : List Line × Int) (b : List Byte)
    (h : applyLine c st b = .ok st') :
    ∀ l ∈ st'.1, l ∈ st.1 ∨ l.Commit = c := by
  match b with
  | [] => exact Except.noConfusion h
  | op :: data =>
    simp only [applyLine] at h
    by_cases h1 : op = spaceB ∨ op = tabB
    · rw [if_pos h1] at h
      cases h
      intro l hl; exact Or.inl hl
    · rw [if_neg h1] at h
      by_cases h2 : op = minusB
      · rw [if_pos h2] at h
        cases hrem : remLine st.2 st.1 with
        | error e => rw [hrem] at h; exact Except.noConfusion h
        | ok r =>
          rw [hrem] at h
          cases h
          intro l hl
          exact Or.inl (remLine_subset st.2 st.1 r hrem l hl)
      · rw [if_neg h2] at h
        by_cases h3 : op = plusB
        · rw [if_pos h3] at h
          cases hadd : addLine st.2 data c st.1 with
          | error e => rw [hadd] at h; exact Except.noConfusion h
          | ok r =>
            rw [hadd] at h
            cases h
            intro l hl
            rcases addLine_mem st.2 data c st.1 r hadd l hl with hm | hm
            · exact Or.inl hm
            · subst hm; exact Or.inr rfl
        · rw [if_neg h3] at h
          by_cases h4 : op = backslashB
          · rw [if_pos h4] at h
            by_cases h5 : op :: data = noNewline
            · rw [if_pos h5] at h
              cases h
              intro l hl; exact Or.inl hl
            · rw [if_neg h5] at h
              exact Except.noConfusion h
          · rw [if_neg h4] at h
            exact Except.noConfusion h

/-- One merge body line only keeps input lines or adds lines owned by the
merge commit or by some parent line's commit. -/
theorem mergeLine_inv (ps : List Blame) (c : String) (st st' : MState)
    (b : List Byte) (h : mergeLine ps c st b = .ok st') :
    ∀ l ∈ st'.res, l ∈ st.res ∨ l.Commit = c ∨
      ∃ p ∈ ps, ∃ l2 ∈ p.Lines, l2.Commit = l.Commit := by
  unfold mergeLine at h
  split at h
  · exact Except.noConfusion h
  · split at h
    · exact Except.noConfusion h
    · rename_i hne hlb
      split at h
      · exact Except.noConfusion h
      · rename_i offs hadv
        have hlen : (b.take ps.length).length = ps.length := by
          rw [List.length_take]; omega
        simp only [mergeLineCore] at h
        by_cases h1 : (b.take ps.length).headD 0 = spaceB ∨
            (b.take ps.length).headD 0 = tabB
        · rw [if_pos h1] at h
          cases h
          intro l hl; exact Or.inl hl
        · rw [if_neg h1] at h
          by_cases h2 : (b.take ps.length).headD 0 = minusB
          · rw [if_pos h2] at h
            cases hrem : remLine st.i st.res with
            | error e => rw [hrem] at h; exact Except.noConfusion h
            | ok r =>
              rw [hrem] at h
              cases h
              intro l hl
              exact Or.inl (remLine_subset st.i st.res r hrem l hl)
          · rw [if_neg h2] at h
            by_cases h3 : (b.take ps.length).headD 0 = plusB
            · rw [if_pos h3] at h
              cases hsrc : mergeSrc ps c (b.take ps.length) offs with
              | error e => rw [hsrc] at h; exact Except.noConfusion h
              | ok src =>
                rw [hsrc] at h
                have h' : Except.map
                    (fun r => MState.mk r (st.i + 1) offs)
                    (addLine st.i (b.drop ps.length) src st.res) =
                      .ok st' := h
                cases hadd : addLine st.i (b.drop ps.length) src st.res with
                | error e => rw [hadd] at h'; exact Except.noConfusion h'
                | ok r =>
                  rw [hadd] at h'
                  cases h'
                  intro l hl
                  rcases addLine_mem st.i (b.drop ps.length) src st.res r
                      hadd l hl with hm | hm
                  · exact Or.inl hm
                  · subst hm
                    rcases mergeSrc_ok ps c (b.take ps.length) offs src hlen
                        hsrc with hs | hs
                    · exact Or.inr (Or.inl hs)
                    · exact Or.inr (Or.inr hs)
            · rw [if_neg h3] at h
              exact Except.noConfusion h

/-- A single-parent hunk only keeps input lines or adds lines owned by the
new commit. -/
theorem applyHunk_inv (c : String) (res res' : List Line) (h : Hunk)
    (hh : applyHunk c res h = .ok res') :
    ∀ l ∈ res', l ∈ res ∨ l.Commit = c := by
  cases hL : h.Locations with
  | nil =>
    unfold applyHunk at hh
    rw [hL] at hh
    exact Except.noConfusion hh
  | cons loc rest =>
    unfold applyHunk at hh
    rw [hL] at hh
    have hh2 : (h.Data.foldlM (applyLine c)
        (res, if loc.Offset - 1 = -1 then 0 else loc.Offset - 1)).map
        (fun st => st.1) = .ok res' := hh
    cases hfold : h.Data.foldlM (applyLine c)
        (res, if loc.Offset - 1 = -1 then 0 else loc.Offset - 1) with
    | error e => rw [hfold] at hh2; exact Except.noConfusion hh2
    | ok st =>
      rw [hfold] at hh2
      cases hh2
      exact foldlM_inv (applyLine c)
        (fun st => ∀ l ∈ st.1, l ∈ res ∨ l.Commit = c)
        (fun s a hQ s' heq l hl => by
          rcases applyLine_inv c s s' a heq l hl with hm | hm
          · exact hQ l hm
          · exact Or.inr hm)
        h.Data _ st (fun l hl => Or.inl hl) hfold

/-- A merge hunk only keeps input lines or adds lines owned by the merge
commit or by some parent line's commit. -/
theorem mergeHunk_inv (ps : List Blame) (c : String) (res res' : List Line)
    (h : Hunk) (hh : mergeHunk ps c res h = .ok res') :
    ∀ l ∈ res', l ∈ res ∨ l.Commit = c ∨
      ∃ p ∈ ps, ∃ l2 ∈ p.Lines, l2.Commit = l.Commit := by
  unfold mergeHunk at hh
  split at hh
  · exact Except.noConfusion hh
  · have hh2 : (h.Data.foldlM (mergeLine ps c)
        ⟨res,
          if (h.Locations.headD ⟨0⟩).Offset - 1 = -1 then 0
          else (h.Locations.headD ⟨0⟩).Offset - 1,
          (h.Locations.take ps.length).map (fun l => l.Offset - 2)⟩).map
        MState.res = .ok res' := hh
    cases hfold : h.Data.foldlM (mergeLine ps c)
        ⟨res,
          if (h.Locations.headD ⟨0⟩).Offset - 1 = -1 then 0
          else (h.Locations.headD ⟨0⟩).Offset - 1,
          (h.Locations.take ps.length).map (fun l => l.Offset - 2)⟩ with
    | error e => rw [hfold] at hh2; exact Except.noConfusion hh2
    | ok st =>
      rw [hfold] at hh2
      cases hh2
      exact foldlM_inv (mergeLine ps c)
        (fun st => ∀ l ∈ st.res, l ∈ res ∨ l.Commit = c ∨
          ∃ p ∈ ps, ∃ l2 ∈ p.Lines, l2.Commit = l.Commit)
        (fun s a hQ s' heq l hl => by
          rcases mergeLine_inv ps c s s' a heq l hl with hm | hm
          · exact hQ l hm
          · exact Or.inr hm)
        h.Data _ st (fun l hl => Or.inl hl) hfold

/-- Claim C2: every line of a successful `Apply` is owned by the new
commit or carries the commit of some line of some parent (first
conjunct); hence for any predicate holding of the new commit and of every
parent line's commit — e.g. "is an ancestor of the new commit" — every
line of the result satisfies it (second conjunct). -/
theorem c2_lines_from_parents_or_commit :
    (∀ (ps : List Blame) (d : Diff) (c : String) (b : Blame),
        Apply ps d c = .ok b →
        ∀ l ∈ b.Lines, l.Commit = c ∨
          ∃ p ∈ ps, ∃ l2 ∈ p.Lines, l2.Commit = l.Commit) ∧
    (∀ (ps : List Blame) (d : Diff) (c : String) (b : Blame)
        (anc : String → Prop),
        Apply ps d c = .ok b → anc c →
        (∀ p ∈ ps, ∀ l2 ∈ p.Lines, anc l2.Commit) →
        ∀ l ∈ b.Lines, anc l.Commit) := by
  have main : ∀ (ps : List Blame) (d : Diff) (c : String) (b : Blame),
      Apply ps d c = .ok b →
      ∀ l ∈ b.Lines, l.Commit = c ∨
        ∃ p ∈ ps, ∃ l2 ∈ p.Lines, l2.Commit = l.Commit := by
    intro ps d c b happ l hl
    unfold Apply at happ
    split_ifs at happ with hp0 hp1
    · -- no parents: base blame is empty
      unfold applyOneParent at happ
      cases hfold : (sortHunksDesc d.Hunks).foldlM (applyHunk c)
          (Blame.Lines ⟨"", []⟩) with
      | error e => rw [hfold] at happ; exact Except.noConfusion happ
      | ok res =>
        rw [hfold] at happ
        cases happ
        have hres := foldlM_inv (applyHunk c)
          (fun res => ∀ l ∈ res, l ∈ ([] : List Line) ∨ l.Commit = c)
          (fun s a hQ s' heq l hl => by
            rcases applyHunk_inv c s s' a heq l hl with hm | hm
            · exact hQ l hm
            · exact Or.inr hm)
          (sortHunksDesc d.Hunks) _ res (fun l hl => Or.inl hl) hfold
        rcases hres l hl with hm | hm
        · exact absurd hm (List.not_mem_nil l)
        · exact Or.inl hm
    · -- one parent
      match ps, hp1 with
      | [p], _ =>
        unfold applyOneParent at happ
        cases hfold : (sortHunksDesc d.Hunks).foldlM (applyHunk c)
            (Blame.Lines (List.headD [p] default)) with
        | error e => rw [hfold] at happ; exact Except.noConfusion happ
        | ok res =>
          rw [hfold] at happ
          cases happ
          have hres := foldlM_inv (applyHunk c)
            (fun res => ∀ l ∈ res, l ∈ p.Lines ∨ l.Commit = c)
            (fun s a hQ s' heq l hl => by
              rcases applyHunk_inv c s s' a heq l hl with hm | hm
              · exact hQ l hm
              · exact Or.inr hm)
            (sortHunksDesc d.Hunks) _ res (fun l hl => Or.inl hl) hfold
          rcases hres l hl with hm | hm
          · exact Or.inr ⟨p, List.mem_singleton_self p, l, hm, rfl⟩
          · exact Or.inl hm
    · -- merge
      match ps, hp0 with
      | p0 :: ptl, _ =>
        unfold applyMerge at happ
        cases hfold : (sortHunksDesc d.Hunks).foldlM
            (mergeHunk (p0 :: ptl) c)
            (Blame.Lines (List.headD (p0 :: ptl) default)) with
        | error e => rw [hfold] at happ; exact Except.noConfusion happ
        | ok res =>
          rw [hfold] at happ
          cases happ
          have hres := foldlM_inv (mergeHunk (p0 :: ptl) c)
            (fun res => ∀ l ∈ res, l ∈ p0.Lines ∨ l.Commit = c ∨
              ∃ p ∈ p0 :: ptl, ∃ l2 ∈ p.Lines, l2.Commit = l.Commit)
            (fun s a hQ s' heq l hl => by
              rcases mergeHunk_inv (p0 :: ptl) c s s' a heq l hl with hm | hm
              · exact hQ l hm
              · exact Or.inr hm)
            (sortHunksDesc d.Hunks) _ res (fun l hl => Or.inl hl) hfold
          rcases hres l hl with hm | hm | hm
          · exact Or.inr ⟨p0, List.mem_cons_self p0 ptl, l, hm, rfl⟩
          · exact Or.inl hm
          · exact Or.inr hm
  refine ⟨main, ?_⟩
  intro ps d c b anc happ hanc hps l hl
  rcases main ps d c b happ l hl with hm | ⟨p, hp, l2, hl2, heq⟩
  · rw [hm]; exact hanc
  · rw [← heq]; exact hps p hp l2 hl2

/-- Witness for C2: the clean-merge scenario; every line of the result is
owned by `M` or by a commit appearing on some parent line. -/
theorem c2_lines_from_parents_or_commit_w :
    (∀ l ∈ (Blame.mk "M" [⟨[97], "E"⟩, ⟨[120], "A"⟩, ⟨[121], "A"⟩,
        ⟨[98], "F"⟩]).Lines,
      l.Commit = "M" ∨
        ∃ p ∈ [Blame.mk "E" [⟨[97], "E"⟩, ⟨[120], "A"⟩, ⟨[121], "A"⟩],
               Blame.mk "F" [⟨[120], "A"⟩, ⟨[121], "A"⟩, ⟨[98], "F"⟩]],
          ∃ l2 ∈ p.Lines, l2.Commit = l.Commit) :=
  c2_lines_from_parents_or_commit.1
    [⟨"E", [⟨[97], "E"⟩, ⟨[120], "A"⟩, ⟨[121], "A"⟩]⟩,
     ⟨"F", [⟨[120], "A"⟩, ⟨[121], "A"⟩, ⟨[98], "F"⟩]⟩]
    ⟨[⟨[⟨1⟩, ⟨1⟩],
       [[spaceB, plusB, 97], [spaceB, spaceB, 120], [spaceB, spaceB, 121],
        [plusB, spaceB, 98]]⟩], false⟩ "M"
    ⟨"M", [⟨[97], "E"⟩, ⟨[120], "A"⟩, ⟨[121], "A"⟩, ⟨[98], "F"⟩]⟩
    (by decide)

/-- Mainline reduction keeps the sort key (only the first location is
consulted). -/
theorem hunkKey_reduce (lenp : Nat) (h : Hunk) :
    hunkKey (reduceHunk lenp h) = hunkKey h := rfl

/-- Insertion commutes with mainline reduction. -/
theorem insertHunkDesc_map_reduce (lenp : Nat) (h : Hunk) (l : List Hunk) :
    insertHunkDesc (reduceHunk lenp h) (l.map (reduceHunk lenp)) =
      (insertHunkDesc h l).map (reduceHunk lenp) := by
  induction l with
  | nil => rfl
  | cons h' rest ih =>
    simp only [List.map_cons, insertHunkDesc, hunkKey_reduce]
    split
    · simp only [List.map_cons]
    · simp only [List.map_cons, ih]

/-- Sorting commutes with mainline reduction. -/
theorem sortHunksDesc_map_reduce (lenp : Nat) (l : List Hunk) :
    sortHunksDesc (l.map (reduceHunk lenp)) =
      (sortHunksDesc l).map (reduceHunk lenp) := by
  induction l with
  | nil => rfl
  | cons h rest ih =>
    simp only [List.map_cons, sortHunksDesc, ih, insertHunkDesc_map_reduce]

/-- One merge body line whose non-mainline columns are all `' '` and whose
mainline op is not `'+'` acts on `(res, i)` exactly like the single-parent
loop on the mainline-reduced line. -/
theorem c6_line (ps : List Blame) (c : String) (st st' : MState)
    (b : List Byte) (h2 : 2 ≤ ps.length) (hlb : ps.length ≤ b.length)
    (hplus : b.headD 0 ≠ plusB)
    (h : mergeLine ps c st b = .ok st') :
    applyLine c (st.res, st.i) (b.headD 0 :: b.drop ps.length) =
      .ok (st'.res, st'.i) := by
  have hbne : b ≠ [] := by
    intro he; rw [he] at hlb; simp only [List.length_nil] at hlb; omega
  rw [mergeLine_eq ps c st b hbne (by omega)] at h
  cases hadv : advanceOffsets (b.take ps.length) 1 ((b.take ps.length).drop 1)
      st.offsets with
  | error e => rw [hadv] at h; exact Except.noConfusion h
  | ok offs =>
    rw [hadv] at h
    have hhd : (b.take ps.length).headD 0 = b.headD 0 :=
      headD_take b ps.length (by omega)
    simp only [mergeLineCore, hhd] at h
    simp only [applyLine]
    by_cases h1 : b.headD 0 = spaceB ∨ b.headD 0 = tabB
    · rw [if_pos h1] at h
      rw [if_pos h1]
      cases h
      rfl
    · rw [if_neg h1] at h
      rw [if_neg h1]
      by_cases hm : b.headD 0 = minusB
      · rw [if_pos hm] at h
        rw [if_pos hm]
        cases hrem : remLine st.i st.res with
        | error e => rw [hrem] at h; exact Except.noConfusion h
        | ok r =>
          rw [hrem] at h
          cases h
          rfl
      · rw [if_neg hm] at h
        rw [if_neg hm]
        rw [if_neg hplus] at h
        exact Except.noConfusion h

/-- One merge hunk under C6's conditions equals the single-parent hunk on
the mainline-reduced hunk. -/
theorem c6_hunk (ps : List Blame) (c : String) (res res' : List Line)
    (h : Hunk) (h2 : 2 ≤ ps.length)
    (hb : ∀ b ∈ h.Data, ps.length ≤ b.length ∧ b.headD 0 ≠ plusB)
    (hh : mergeHunk ps c res h = .ok res') :
    applyHunk c res (reduceHunk ps.length h) = .ok res' := by
  unfold mergeHunk at hh
  split at hh
  · exact Except.noConfusion hh
  · have hh2 : (h.Data.foldlM (mergeLine ps c)
        ⟨res,
          if (h.Locations.headD ⟨0⟩).Offset - 1 = -1 then 0
          else (h.Locations.headD ⟨0⟩).Offset - 1,
          (h.Locations.take ps.length).map (fun l => l.Offset - 2)⟩).map
        MState.res = .ok res' := hh
    have key : ∀ (body : List (List Byte)) (st : MState) (st'' : MState),
        (∀ b ∈ body, ps.length ≤ b.length ∧ b.headD 0 ≠ plusB) →
        body.foldlM (mergeLine ps c) st = .ok st'' →
        (body.map (fun b => b.headD 0 :: b.drop ps.length)).foldlM
          (applyLine c) (st.res, st.i) = .ok (st''.res, st''.i) := by
      intro body
      induction body with
      | nil =>
        intro st st'' _ hfold
        rw [List.foldlM_nil] at hfold
        cases hfold
        rw [List.map_nil, List.foldlM_nil]
        rfl
      | cons b body ih =>
        intro st st'' hbs hfold
        rw [List.foldlM_cons] at hfold
        cases hstep : mergeLine ps c st b with
        | error e => rw [hstep] at hfold; exact Except.noConfusion hfold
        | ok st1 =>
          rw [hstep] at hfold
          have hbb := hbs b (List.mem_cons_self b body)
          have hline := c6_line ps c st st1 b h2 hbb.1 hbb.2 hstep
          rw [List.map_cons, List.foldlM_cons, hline]
          exact ih st1 st''
            (fun b' hb' => hbs b' (List.mem_cons_of_mem b hb')) hfold
    cases hfold : h.Data.foldlM (mergeLine ps c)
        ⟨res,
          if (h.Locations.headD ⟨0⟩).Offset - 1 = -1 then 0
          else (h.Locations.headD ⟨0⟩).Offset - 1,
          (h.Locations.take ps.length).map (fun l => l.Offset - 2)⟩ with
    | error e => rw [hfold] at hh2; exact Except.noConfusion hh2
    | ok stE =>
      rw [hfold] at hh2
      cases hh2
      have := key h.Data _ stE hb hfold
      simp only [reduceHunk, applyHunk]
      rw [this]
      rfl

/-- Claim C6 counterexample: two parents, one hunk whose only body line is
`'+ x'` — every non-mainline column is `' '`.  The merge apply attributes
`x` to parent 1's line 0 (owned by `B`), while the single-parent apply of
the mainline-reduced diff attributes it to the merge commit `M`; the two
blames differ. -/
theorem c6_not_reducible_with_plus :
    Apply [⟨"A", []⟩, ⟨"B", [⟨[98], "B"⟩]⟩]
        ⟨[⟨[⟨1⟩, ⟨1⟩], [[plusB, spaceB, 120]]⟩], false⟩ "M" ≠
      Apply [⟨"A", []⟩]
        (reduceDiff 2 ⟨[⟨[⟨1⟩, ⟨1⟩], [[plusB, spaceB, 120]]⟩], false⟩)
        "M" := by decide

/-- Claim C6 as amended: with at least two parents, if every hunk body
line has a full op prefix whose non-mainline columns are all `' '` *and a
mainline op other than `'+'`*, then whenever the merge apply succeeds, the
single-parent apply of `parents[0]` against the mainline-reduced diff
succeeds with the same blame.  (A `'+'` mainline line breaks the
reduction: the merge attributes it through the last-`' '` column to a
non-mainline parent, the single-parent apply to the merge commit.) -/
theorem c6_all_space_reduces (ps : List Blame) (d : Diff) (c : String)
    (r : Blame) (h2 : 2 ≤ ps.length)
    (hb : ∀ h ∈ d.Hunks, ∀ b ∈ h.Data,
      ps.length ≤ b.length ∧ b.headD 0 ≠ plusB)
    (happ : applyMerge ps d c = .ok r) :
    applyOneParent (ps.headD default) (reduceDiff ps.length d) c = .ok r := by
  unfold applyMerge at happ
  unfold applyOneParent reduceDiff
  simp only [sortHunksDesc_map_reduce]
  have key : ∀ (hs : List Hunk) (res : List Line) (resE : List Line),
      (∀ h ∈ hs, ∀ b ∈ h.Data, ps.length ≤ b.length ∧ b.headD 0 ≠ plusB) →
      hs.foldlM (mergeHunk ps c) res = .ok resE →
      (hs.map (reduceHunk ps.length)).foldlM (applyHunk c) res = .ok resE := by
    intro hs
    induction hs with
    | nil =>
      intro res resE _ hfold
      rw [List.foldlM_nil] at hfold
      cases hfold
      rw [List.map_nil, List.foldlM_nil]
      rfl
    | cons h hs ih =>
      intro res resE hbs hfold
      rw [List.foldlM_cons] at hfold
      cases hstep : mergeHunk ps c res h with
      | error e => rw [hstep] at hfold; exact Except.noConfusion hfold
      | ok res1 =>
        rw [hstep] at hfold
        have hhunk := c6_hunk ps c res res1 h h2
          (hbs h (List.mem_cons_self h hs)) hstep
        rw [List.map_cons, List.foldlM_cons, hhunk]
        exact ih res1 resE
          (fun h' hh' => hbs h' (List.mem_cons_of_mem h hh')) hfold
  cases hfold : (sortHunksDesc d.Hunks).foldlM (mergeHunk ps c)
      (Blame.Lines (List.headD ps default)) with
  | error e => rw [hfold] at happ; exact Except.noConfusion happ
  | ok resE =>
    rw [hfold] at happ
    cases happ
    have hmem : ∀ h ∈ sortHunksDesc d.Hunks, ∀ b ∈ h.Data,
        ps.length ≤ b.length ∧ b.headD 0 ≠ plusB := by
      intro h hh
      exact hb h ((sortHunksDesc_perm d.Hunks).mem_iff.mp hh)
    rw [key (sortHunksDesc d.Hunks) _ resE hmem hfold]
    rfl

/-- Witness for C6's amended theorem: a two-parent merge with one context
body line reduces to the single-parent apply of the mainline parent. -/
theorem c6_all_space_reduces_w :
    applyOneParent (List.headD [Blame.mk "A" [⟨[97], "A"⟩],
        Blame.mk "B" [⟨[97], "A"⟩]] default)
      (reduceDiff 2 ⟨[⟨[⟨1⟩, ⟨1⟩], [[spaceB, spaceB, 97]]⟩], false⟩) "M" =
      .ok ⟨"M", [⟨[97], "A"⟩]⟩ :=
  c6_all_space_reduces
    [⟨"A", [⟨[97], "A"⟩]⟩, ⟨"B", [⟨[97], "A"⟩]⟩]
    ⟨[⟨[⟨1⟩, ⟨1⟩], [[spaceB, spaceB, 97]]⟩], false⟩ "M"
    ⟨"M", [⟨[97], "A"⟩]⟩ (by decide) (by decide) (by decide)

/-- Ascending insertion is a permutation. -/
theorem insertHunkAsc_perm (h : Hunk) (l : List Hunk) :
    List.Perm (insertHunkAsc h l) (h :: l) := by
  induction l with
  | nil => simp [insertHunkAsc]
  | cons h' rest ih =>
    simp only [insertHunkAsc]
    split
    · exact List.Perm.refl _
    · exact (ih.cons h').trans (List.Perm.swap h h' rest)

/-- Ascending sorting keeps the multiset of hunks. -/
theorem sortHunksAsc_perm (l : List Hunk) : List.Perm (sortHunksAsc l) l := by
  induction l with
  | nil => simp [sortHunksAsc]
  | cons h rest ih =>
    exact (insertHunkAsc_perm h (sortHunksAsc rest)).trans (ih.cons h)

/-- Descending insertion keeps weak descending sortedness. -/
theorem insertHunkDesc_pairwise (h : Hunk) (l : List Hunk)
    (hl : l.Pairwise (fun a b => hunkKey b ≤ hunkKey a)) :
    (insertHunkDesc h l).Pairwise (fun a b => hunkKey b ≤ hunkKey a) := by
  induction l with
  | nil => simp [insertHunkDesc]
  | cons h' rest ih =>
    rcases List.pairwise_cons.mp hl with ⟨hh', hrest⟩
    simp only [insertHunkDesc]
    split
    · rename_i hlt
      refine List.pairwise_cons.mpr ⟨?_, hl⟩
      intro x hx
      rcases List.mem_cons.mp hx with hx | hx
      · subst hx; omega
      · have := hh' x hx; omega
    · rename_i hnlt
      refine List.pairwise_cons.mpr ⟨?_, ih hrest⟩
      intro x hx
      have hx' : x ∈ h :: rest := (insertHunkDesc_perm h rest).mem_iff.mp hx
      rcases List.mem_cons.mp hx' with hx1 | hx1
      · subst hx1; omega
      · exact hh' x hx1

/-- `sortHunksDesc` is weakly descending by first-location offset. -/
theorem sortHunksDesc_pairwise (l : List Hunk) :
    (sortHunksDesc l).Pairwise (fun a b => hunkKey b ≤ hunkKey a) := by
  induction l with
  | nil => exact List.Pairwise.nil
  | cons h rest ih => exact insertHunkDesc_pairwise h (sortHunksDesc rest) ih

/-- `keysStrictAsc` holds of the tail. -/
theorem keysStrictAsc_tail (a : Hunk) (l : List Hunk)
    (h : keysStrictAsc (a :: l) = true) : keysStrictAsc l = true := by
  cases l with
  | nil => rfl
  | cons b t =>
    simp only [keysStrictAsc, Bool.and_eq_true] at h
    exact h.2

/-- The head of a strict chain is below every later element. -/
theorem keysStrictAsc_head_lt (l : List Hunk) :
    ∀ (a x : Hunk), keysStrictAsc (a :: l) = true → x ∈ l →
      hunkKey a < hunkKey x := by
  induction l with
  | nil => intro a x _ hx; simp at hx
  | cons b t ih =>
    intro a x h hx
    simp only [keysStrictAsc, Bool.and_eq_true, decide_eq_true_eq] at h
    rcases List.mem_cons.mp hx with hx | hx
    · subst hx; exact h.1
    · refine lt_trans h.1 (ih b x ?_ hx)
      have := h.2
      cases t with
      | nil => rfl
      | cons u v => simpa [keysStrictAsc, Bool.and_eq_true] using this

/-- A strict chain is strictly pairwise ascending. -/
theorem keysStrictAsc_pairwise (l : List Hunk) (h : keysStrictAsc l = true) :
    l.Pairwise (fun a b => hunkKey a < hunkKey b) := by
  induction l with
  | nil => exact List.Pairwise.nil
  | cons a t ih =>
    exact List.pairwise_cons.mpr
      ⟨fun x hx => keysStrictAsc_head_lt t a x h hx,
        ih (keysStrictAsc_tail a t h)⟩

/-- With pairwise-distinct first-location offsets the descending sort is
the reverse of the ascending sort: both are sorted strictly descending (up
to the distinctness) and are permutations of the same list. -/
theorem sortHunksDesc_eq_reverse (l : List Hunk)
    (hs : keysStrictAsc (sortHunksAsc l) = true) :
    sortHunksDesc l = (sortHunksAsc l).reverse := by
  haveI : IsAntisymm Hunk (fun a b => hunkKey b < hunkKey a) :=
    ⟨fun a b h1 h2 => absurd (lt_trans h1 h2) (lt_irrefl _)⟩
  have hasc := keysStrictAsc_pairwise _ hs
  have hperm : List.Perm (sortHunksDesc l) (sortHunksAsc l) :=
    (sortHunksDesc_perm l).trans (sortHunksAsc_perm l).symm
  have hne : (sortHunksDesc l).Pairwise
      (fun a b => hunkKey a ≠ hunkKey b) := by
    refine (List.Perm.pairwise_iff ?_ hperm).mpr
      (hasc.imp (fun hab => ne_of_lt hab))
    intro x y hxy heq
    exact hxy heq.symm
  have h1 : (sortHunksDesc l).Pairwise (fun a b => hunkKey b < hunkKey a) :=
    ((sortHunksDesc_pairwise l).and hne).imp
      (fun hab => lt_of_le_of_ne hab.1 (Ne.symm hab.2))
  have h2 : ((sortHunksAsc l).reverse).Pairwise
      (fun a b => hunkKey b < hunkKey a) :=
    List.pairwise_reverse.mpr hasc
  exact List.eq_of_perm_of_sorted
    (hperm.trans (List.reverse_perm (sortHunksAsc l)).symm) h1 h2

/-- Splitting a longer prefix after a shorter one. -/
theorem take_split {α : Type} (l : List α) (a b : Nat) (hab : a ≤ b) :
    l.take a ++ (l.take b).drop a = l.take b := by
  conv_rhs => rw [← List.take_append_drop a (l.take b)]
  rw [List.take_take, Nat.min_eq_left hab]

/-- `consumedOf` on a cons. -/
theorem consumedOf_cons (b : List Byte) (body : List (List Byte)) :
    consumedOf (b :: body) =
      (if consumes b then 1 else 0) + consumedOf body := by
  by_cases h : consumes b
  · simp [consumedOf, List.filter_cons, h]; omega
  · simp [consumedOf, List.filter_cons, h]

/-- Reducing a bind on a success value. -/
theorem ok_bind {α β : Type} (a : α) (f : α → Except String β) :
    (Except.ok a >>= f) = f a := rfl

/-- Case split on a well-formed body line. -/
theorem wfLine_cases (b : List Byte) (h : wfLine b = true) :
    b = noNewline ∨ ∃ op data, b = op :: data ∧
      ((op = spaceB ∨ op = tabB) ∨ op = minusB ∨ op = plusB) := by
  simp only [wfLine, Bool.and_eq_true, Bool.or_eq_true, decide_eq_true_eq] at h
  obtain ⟨hne, hops⟩ := h
  cases b with
  | nil => exact absurd rfl hne
  | cons op data =>
    simp only [List.headD_cons] at hops
    rcases hops with ((((h1 | h2) | h3) | h4) | h5)
    · exact Or.inr ⟨op, data, rfl, Or.inl (Or.inl h1)⟩
    · exact Or.inr ⟨op, data, rfl, Or.inl (Or.inr h2)⟩
    · exact Or.inr ⟨op, data, rfl, Or.inr (Or.inl h3)⟩
    · exact Or.inr ⟨op, data, rfl, Or.inr (Or.inr h4)⟩
    · exact Or.inl h5

/-- The Go single-parent body loop, run from a buffer `pre ++ seg ++ z`
with the cursor at `|pre|`, where `seg` is exactly the region the body
consumes: the result replaces `seg` by the body's output and leaves the
cursor after it.  This is the decomposition behind both claim C5
directions. -/
theorem goBody (c : String) (body : List (List Byte)) :
    ∀ (pre seg z : List Line),
    wfBody body = true → seg.length = consumedOf body →
    body.foldlM (applyLine c) (pre ++ seg ++ z, (pre.length : Int)) =
      .ok (pre ++ outOf c body seg ++ z,
        ((pre.length + (outOf c body seg).length : Nat) : Int)) := by
  induction body with
  | nil =>
    intro pre seg z _ hseg
    have hs0 : seg = [] := by
      have h0 : consumedOf ([] : List (List Byte)) = 0 := rfl
      rw [h0] at hseg
      exact List.length_eq_zero.mp hseg
    subst hs0
    rw [List.foldlM_nil]
    simp only [outOf, List.append_nil, List.nil_append, Nat.add_zero,
      List.length_nil]
    rfl
  | cons b body ih =>
    intro pre seg z hwf hseg
    have hwf' : wfLine b = true ∧ wfBody body = true := by
      simpa [wfBody, List.all_cons, Bool.and_eq_true] using hwf
    rw [List.foldlM_cons]
    rcases wfLine_cases b hwf'.1 with hnn | ⟨op, data, hbop, hops⟩
    · -- the no-newline sentinel: skipped, nothing consumed, nothing output
      subst hnn
      have hstep : applyLine c (pre ++ seg ++ z, (pre.length : Int))
          noNewline = .ok (pre ++ seg ++ z, (pre.length : Int)) := rfl
      rw [hstep, ok_bind]
      have hcons : consumedOf (noNewline :: body) = consumedOf body := by
        rw [consumedOf_cons]
        simp [show consumes noNewline = false from rfl]
      have hout : outOf c (noNewline :: body) seg = outOf c body seg := rfl
      rw [hout]
      exact ih pre seg z hwf'.2 (by rw [hseg, hcons])
    · subst hbop
      rcases hops with hsp | hm | hp
      · -- context: keep the head of `seg`, advance the cursor
        have hcons : consumes (op :: data) = true := by
          rcases hsp with h | h <;> subst h <;> rfl
        have hseg1 : seg.length = 1 + consumedOf body := by
          rw [hseg, consumedOf_cons, hcons]
          simp
        cases seg with
        | nil => exact absurd hseg1 (by simp only [List.length_nil]; omega)
        | cons l seg' =>
          have hstep : applyLine c (pre ++ (l :: seg') ++ z,
              (pre.length : Int)) (op :: data) =
              .ok (pre ++ (l :: seg') ++ z, (pre.length : Int) + 1) := by
            simp only [applyLine, if_pos hsp]
          rw [hstep, ok_bind]
          have e1 : pre ++ (l :: seg') ++ z = (pre ++ [l]) ++ seg' ++ z := by
            simp
          have e2 : (pre.length : Int) + 1 =
              (((pre ++ [l]).length : Nat) : Int) := by simp
          have hseg' : seg'.length = consumedOf body := by
            simp only [List.length_cons] at hseg1
            omega
          rw [e1, e2, ih (pre ++ [l]) seg' z hwf'.2 hseg']
          have hout : outOf c ((op :: data) :: body) (l :: seg') =
              l :: outOf c body seg' := by
            simp only [outOf, List.headD_cons, if_pos hsp]
          rw [hout]
          simp only [Except.ok.injEq, Prod.mk.injEq]
          constructor
          · simp
          · simp only [List.length_append, List.length_cons, List.length_nil]
            omega
      · -- deletion: drop the head of `seg`
        have hcons : consumes (op :: data) = true := by subst hm; rfl
        have hseg1 : seg.length = 1 + consumedOf body := by
          rw [hseg, consumedOf_cons, hcons]
          simp
        cases seg with
        | nil => exact absurd hseg1 (by simp only [List.length_nil]; omega)
        | cons l seg' =>
          have hlen2 : ((pre ++ (l :: seg') ++ z).length : Int) =
              (pre.length : Int) + 1 + seg'.length + z.length := by
            simp only [List.length_append, List.length_cons]
            push_cast
            ring
          have hrem : remLine (pre.length : Int) (pre ++ (l :: seg') ++ z) =
              .ok (pre ++ (seg' ++ z)) := by
            unfold remLine
            rw [if_neg (by rw [hlen2]; omega)]
            have htk : ((pre.length : Int)).toNat = pre.length :=
              Int.toNat_natCast pre.length
            rw [htk]
            have htake : (pre ++ (l :: seg') ++ z).take pre.length = pre := by
              rw [List.append_assoc]
              exact List.take_left pre _
            have hdrop : (pre ++ (l :: seg') ++ z).drop (pre.length + 1) =
                seg' ++ z := by
              have e3 : pre ++ (l :: seg') ++ z =
                  (pre ++ [l]) ++ (seg' ++ z) := by simp
              have e4 : pre.length + 1 = (pre ++ [l]).length := by simp
              rw [e3, e4]
              exact List.drop_left _ _
            rw [htake, hdrop]
          have hstep : applyLine c (pre ++ (l :: seg') ++ z,
              (pre.length : Int)) (op :: data) =
              .ok (pre ++ (seg' ++ z), (pre.length : Int)) := by
            subst hm
            simp only [applyLine]
            rw [if_neg (by decide : ¬(minusB = spaceB ∨ minusB = tabB)),
              if_true, hrem]
            rfl
          rw [hstep, ok_bind]
          have e1 : pre ++ (seg' ++ z) = pre ++ seg' ++ z := by simp
          have hseg' : seg'.length = consumedOf body := by
            simp only [List.length_cons] at hseg1
            omega
          rw [e1, ih pre seg' z hwf'.2 hseg']
          have hout : outOf c ((op :: data) :: body) (l :: seg') =
              outOf c body seg' := by
            subst hm
            simp only [outOf, List.headD_cons]
            rw [if_neg (by decide : ¬(minusB = spaceB ∨ minusB = tabB)),
              if_true]
          rw [hout]
      · -- insertion: emit a new line owned by `c`
        have hcons : consumes (op :: data) = false := by subst hp; rfl
        have hseg' : seg.length = consumedOf body := by
          rw [hseg, consumedOf_cons, hcons]
          simp
        have hlen2 : ((pre ++ seg ++ z).length : Int) =
            (pre.length : Int) + seg.length + z.length := by
          simp only [List.length_append]
          push_cast
          ring
        have hadd : addLine (pre.length : Int) data c (pre ++ seg ++ z) =
            .ok (pre ++ ⟨data, c⟩ :: (seg ++ z)) := by
          unfold addLine
          rw [if_neg (by rw [hlen2]; omega)]
          have htk : ((pre.length : Int)).toNat = pre.length :=
            Int.toNat_natCast pre.length
          rw [htk]
          have htake : (pre ++ seg ++ z).take pre.length = pre := by
            rw [List.append_assoc]
            exact List.take_left pre _
          have hdrop : (pre ++ seg ++ z).drop pre.length = seg ++ z := by
            rw [List.append_assoc]
            exact List.drop_left pre _
          rw [htake, hdrop]
        have hstep : applyLine c (pre ++ seg ++ z, (pre.length : Int))
            (op :: data) =
            .ok (pre ++ ⟨data, c⟩ :: (seg ++ z), (pre.length : Int) + 1) := by
          subst hp
          simp only [applyLine]
          rw [if_neg (by decide : ¬(plusB = spaceB ∨ plusB = tabB)),
            if_neg (by decide : ¬plusB = minusB), if_true, hadd]
          rfl
        rw [hstep, ok_bind]
        have e1 : pre ++ (⟨data, c⟩ : Line) :: (seg ++ z) =
            (pre ++ [⟨data, c⟩]) ++ seg ++ z := by simp
        have e2 : (pre.length : Int) + 1 =
            (((pre ++ [(⟨data, c⟩ : Line)]).length : Nat) : Int) := by simp
        rw [e1, e2]
        have hIH := ih (pre ++ [(⟨data, c⟩ : Line)]) seg z hwf'.2 hseg'
        rw [hIH]
        have hout : outOf c ((op :: data) :: body) seg =
            ⟨data, c⟩ :: outOf c body seg := by
          subst hp
          simp only [outOf, List.headD_cons]
          rw [if_neg (by decide : ¬(plusB = spaceB ∨ plusB = tabB)),
            if_neg (by decide : ¬plusB = minusB), if_true]
          simp
        rw [hout]
        simp only [Except.ok.injEq, Prod.mk.injEq]
        constructor
        · simp
        · simp only [List.length_append, List.length_cons, List.length_nil]
          omega

/-- `hunkStart` as an integer. -/
theorem hunkStart_toNat (h : Hunk) :
    ((hunkStart h : Nat) : Int) = max 0 (hunkKey h - 1) := by
  unfold hunkStart
  rw [Int.toNat_of_nonneg (le_max_left 0 _)]

/-- The Go single-parent hunk loop on a buffer `pre ++ seg ++ z` whose
prefix length is the hunk's start and whose `seg` is the consumed region:
the hunk replaces `seg` by its body output. -/
theorem goHunk (c : String) (h : Hunk) (pre seg z : List Line)
    (hLoc : h.Locations ≠ []) (hkey : 0 ≤ hunkKey h)
    (hwf : wfBody h.Data = true) (hpre : pre.length = hunkStart h)
    (hseg : seg.length = consumedOf h.Data) :
    applyHunk c (pre ++ seg ++ z) h = .ok (pre ++ outOf c h.Data seg ++ z) := by
  cases hL : h.Locations with
  | nil => exact absurd hL hLoc
  | cons loc rest =>
    have hkey' : hunkKey h = loc.Offset := by
      rw [hunkKey, hL]
      rfl
    rw [hkey'] at hkey
    unfold applyHunk
    rw [hL]
    show (h.Data.foldlM (applyLine c)
        (pre ++ seg ++ z,
          if loc.Offset - 1 = -1 then 0 else loc.Offset - 1)).map
      (fun st => st.1) = _
    have hi0 : (if loc.Offset - 1 = -1 then (0 : Int) else loc.Offset - 1) =
        (pre.length : Int) := by
      have hplen : (pre.length : Int) = max 0 (loc.Offset - 1) := by
        rw [hpre, hunkStart_toNat, hkey']
      rw [hplen]
      by_cases h0 : loc.Offset - 1 = -1
      · rw [if_pos h0, h0]
        decide
      · rw [if_neg h0, max_eq_right (by omega : (0 : Int) ≤ loc.Offset - 1)]
    rw [hi0, goBody c h.Data pre seg z hwf hseg]
    rfl

/-- The spec's body loop from cursor `cur`: it consumes the next
`consumedOf body` parent lines and appends the body output. -/
theorem specBody (c : String) (P : List Line) (body : List (List Byte)) :
    ∀ (cur : Nat) (acc : List Line),
    wfBody body = true → cur + consumedOf body ≤ P.length →
    body.foldlM (specLine P c) (cur, acc) =
      .ok (cur + consumedOf body,
        acc ++ outOf c body ((P.drop cur).take (consumedOf body))) := by
  induction body with
  | nil =>
    intro cur acc _ _
    rw [List.foldlM_nil]
    simp only [outOf, List.append_nil]
    rfl
  | cons b body ih =>
    intro cur acc hwf hle
    have hwf' : wfLine b = true ∧ wfBody body = true := by
      simpa [wfBody, List.all_cons, Bool.and_eq_true] using hwf
    rw [List.foldlM_cons]
    rcases wfLine_cases b hwf'.1 with hnn | ⟨op, data, hbop, hops⟩
    · subst hnn
      have hstep : specLine P c (cur, acc) noNewline = .ok (cur, acc) := rfl
      rw [hstep, ok_bind]
      have hcons : consumedOf (noNewline :: body) = consumedOf body := by
        rw [consumedOf_cons]
        simp [show consumes noNewline = false from rfl]
      have hout : ∀ seg, outOf c (noNewline :: body) seg = outOf c body seg :=
        fun _ => rfl
      rw [hcons] at hle ⊢
      rw [hout]
      exact ih cur acc hwf'.2 hle
    · subst hbop
      rcases hops with hsp | hm | hp
      · -- context
        have hcons : consumes (op :: data) = true := by
          rcases hsp with h | h <;> subst h <;> rfl
        have hcons' : consumedOf ((op :: data) :: body) =
            1 + consumedOf body := by
          rw [consumedOf_cons, hcons]
          simp
        rw [hcons'] at hle ⊢
        have hcur : cur < P.length := by omega
        have hget : P.get? cur = some (P[cur]) := by
          rw [List.get?_eq_getElem?]
          exact List.getElem?_eq_getElem hcur
        have hstep : specLine P c (cur, acc) (op :: data) =
            .ok (cur + 1, acc ++ [P[cur]]) := by
          simp only [specLine, if_pos hsp, hget]
        rw [hstep, ok_bind, ih (cur + 1) (acc ++ [P[cur]]) hwf'.2 (by omega)]
        have hdropP : P.drop cur = P[cur] :: P.drop (cur + 1) :=
          List.drop_eq_getElem_cons hcur
        have hseg2 : (P.drop cur).take (1 + consumedOf body) =
            P[cur] :: (P.drop (cur + 1)).take (consumedOf body) := by
          rw [hdropP, Nat.add_comm 1 (consumedOf body), List.take_succ_cons]
        rw [hseg2]
        have hout : outOf c ((op :: data) :: body)
            (P[cur] :: (P.drop (cur + 1)).take (consumedOf body)) =
            P[cur] :: outOf c body ((P.drop (cur + 1)).take (consumedOf body)) := by
          simp only [outOf, List.headD_cons, if_pos hsp]
        rw [hout]
        simp only [Except.ok.injEq, Prod.mk.injEq]
        constructor
        · omega
        · simp
      · -- deletion
        have hcons : consumes (op :: data) = true := by subst hm; rfl
        have hcons' : consumedOf ((op :: data) :: body) =
            1 + consumedOf body := by
          rw [consumedOf_cons, hcons]
          simp
        rw [hcons'] at hle ⊢
        have hcur : cur < P.length := by omega
        have hstep : specLine P c (cur, acc) (op :: data) =
            .ok (cur + 1, acc) := by
          subst hm
          simp only [specLine]
          rw [if_neg (by decide : ¬(minusB = spaceB ∨ minusB = tabB)),
            if_true, if_pos hcur]
        rw [hstep, ok_bind, ih (cur + 1) acc hwf'.2 (by omega)]
        have hdropP : P.drop cur = P[cur] :: P.drop (cur + 1) :=
          List.drop_eq_getElem_cons hcur
        have hseg2 : (P.drop cur).take (1 + consumedOf body) =
            P[cur] :: (P.drop (cur + 1)).take (consumedOf body) := by
          rw [hdropP, Nat.add_comm 1 (consumedOf body), List.take_succ_cons]
        rw [hseg2]
        have hout : outOf c ((op :: data) :: body)
            (P[cur] :: (P.drop (cur + 1)).take (consumedOf body)) =
            outOf c body ((P.drop (cur + 1)).take (consumedOf body)) := by
          subst hm
          simp only [outOf, List.headD_cons]
          rw [if_neg (by decide : ¬(minusB = spaceB ∨ minusB = tabB)),
            if_true]
        rw [hout]
        simp only [Except.ok.injEq, Prod.mk.injEq]
        constructor
        · omega
        · trivial
      · -- insertion
        have hcons : consumes (op :: data) = false := by subst hp; rfl
        have hcons' : consumedOf ((op :: data) :: body) = consumedOf body := by
          rw [consumedOf_cons, hcons]
          simp
        rw [hcons'] at hle ⊢
        have hstep : specLine P c (cur, acc) (op :: data) =
            .ok (cur, acc ++ [⟨data, c⟩]) := by
          subst hp
          simp only [specLine]
          rw [if_neg (by decide : ¬(plusB = spaceB ∨ plusB = tabB)),
            if_neg (by decide : ¬plusB = minusB), if_true]
        have hIH := ih cur (acc ++ [(⟨data, c⟩ : Line)]) hwf'.2 hle
        rw [hstep, ok_bind, hIH]
        have hout : outOf c ((op :: data) :: body)
            ((P.drop cur).take (consumedOf body)) =
            ⟨data, c⟩ :: outOf c body ((P.drop cur).take (consumedOf body)) := by
          subst hp
          simp only [outOf, List.headD_cons]
          rw [if_neg (by decide : ¬(plusB = spaceB ∨ plusB = tabB)),
            if_neg (by decide : ¬plusB = minusB), if_true]
          simp
        rw [hout]
        simp

/-- The spec's per-hunk step from a cursor below the hunk: copy the gap,
output the body against the consumed segment, land at `hunkEnd`. -/
theorem specHunkEq (c : String) (P : List Line) (h : Hunk) (cur : Nat)
    (acc : List Line) (hLoc : h.Locations ≠ []) (hkey : 0 ≤ hunkKey h)
    (hwf : wfBody h.Data = true) (hcur : cur ≤ hunkStart h)
    (hrange : hunkEnd h ≤ P.length) :
    specHunk P c (cur, acc) h =
      .ok (hunkEnd h,
        acc ++ (P.take (hunkStart h)).drop cur ++
          outOf c h.Data ((P.drop (hunkStart h)).take (consumedOf h.Data))) := by
  cases hL : h.Locations with
  | nil => exact absurd hL hLoc
  | cons loc rest =>
    have hkey' : hunkKey h = loc.Offset := by
      rw [hunkKey, hL]
      rfl
    have hjs : (max 0 (loc.Offset - 1)).toNat = hunkStart h := by
      unfold hunkStart
      rw [hkey']
    unfold specHunk
    rw [hL]
    show h.Data.foldlM (specLine P c)
        ((max 0 (loc.Offset - 1)).toNat,
          acc ++ (P.take ((max 0 (loc.Offset - 1)).toNat)).drop cur) = _
    rw [hjs, specBody c P h.Data (hunkStart h) _ hwf
      (by unfold hunkEnd at hrange; omega)]
    simp only [Except.ok.injEq, Prod.mk.injEq]
    constructor
    · rfl
    · simp [List.append_assoc]

/-- The Go descending fold over an ascending disjoint in-range hunk list
produces the assembled normal form. -/
theorem goFold (c : String) (P : List Line) (hs : List Hunk) :
    ∀ (lo : Nat), hunksSeq P.length lo hs = true →
    (hs.reverse).foldlM (applyHunk c) P =
      .ok (P.take lo ++ asmOut c P lo hs) := by
  induction hs with
  | nil =>
    intro lo _
    rw [List.reverse_nil, List.foldlM_nil,
      show asmOut c P lo [] = P.drop lo from rfl, List.take_append_drop]
    rfl
  | cons h hs ih =>
    intro lo hseq
    have hseq' : wfHunk P.length lo h = true ∧
        hunksSeq P.length (hunkEnd h) hs = true := by
      simpa [hunksSeq, Bool.and_eq_true] using hseq
    obtain ⟨hwfh, hrest⟩ := hseq'
    have hw : h.Locations ≠ [] ∧ 0 ≤ hunkKey h ∧ wfBody h.Data = true ∧
        lo ≤ hunkStart h ∧ hunkEnd h ≤ P.length := by
      simp only [wfHunk, Bool.and_eq_true, decide_eq_true_eq] at hwfh
      exact ⟨hwfh.1.1.1.1, hwfh.1.1.1.2, hwfh.1.1.2, hwfh.1.2, hwfh.2⟩
    rw [List.reverse_cons, List.foldlM_append, ih (hunkEnd h) hrest, ok_bind,
      List.foldlM_cons]
    have hVsplit : P.take (hunkEnd h) ++ asmOut c P (hunkEnd h) hs =
        P.take (hunkStart h) ++ (P.take (hunkEnd h)).drop (hunkStart h) ++
          asmOut c P (hunkEnd h) hs := by
      rw [take_split P (hunkStart h) (hunkEnd h) (by unfold hunkEnd; omega)]
    rw [hVsplit]
    have hpre : (P.take (hunkStart h)).length = hunkStart h := by
      rw [List.length_take]
      have : hunkEnd h ≤ P.length := hw.2.2.2.2
      unfold hunkEnd at this
      omega
    have hseg : ((P.take (hunkEnd h)).drop (hunkStart h)).length =
        consumedOf h.Data := by
      simp only [List.length_drop, List.length_take]
      have : hunkEnd h ≤ P.length := hw.2.2.2.2
      unfold hunkEnd at this ⊢
      omega
    rw [goHunk c h (P.take (hunkStart h))
      ((P.take (hunkEnd h)).drop (hunkStart h)) (asmOut c P (hunkEnd h) hs)
      hw.1 hw.2.1 hw.2.2.1 hpre hseg, ok_bind, List.foldlM_nil]
    show Except.ok (P.take (hunkStart h) ++
        outOf c h.Data ((P.take (hunkEnd h)).drop (hunkStart h)) ++
        asmOut c P (hunkEnd h) hs) = _
    rw [show asmOut c P lo (h :: hs) =
        (P.take (hunkStart h)).drop lo ++
          outOf c h.Data ((P.take (hunkEnd h)).drop (hunkStart h)) ++
          asmOut c P (hunkEnd h) hs from rfl]
    have hts := take_split P lo (hunkStart h) hw.2.2.2.1
    conv_lhs => rw [← hts]
    simp [List.append_assoc]

/-- The spec's ascending fold followed by the final tail copy produces the
same assembled normal form. -/
theorem specFold (c : String) (P : List Line) (hs : List Hunk) :
    ∀ (lo : Nat) (acc : List Line), hunksSeq P.length lo hs = true →
    (hs.foldlM (specHunk P c) (lo, acc)).map
        (fun st => st.2 ++ P.drop st.1) =
      .ok (acc ++ asmOut c P lo hs) := by
  induction hs with
  | nil =>
    intro lo acc _
    rw [List.foldlM_nil]
    rfl
  | cons h hs ih =>
    intro lo acc hseq
    have hseq' : wfHunk P.length lo h = true ∧
        hunksSeq P.length (hunkEnd h) hs = true := by
      simpa [hunksSeq, Bool.and_eq_true] using hseq
    obtain ⟨hwfh, hrest⟩ := hseq'
    have hw : h.Locations ≠ [] ∧ 0 ≤ hunkKey h ∧ wfBody h.Data = true ∧
        lo ≤ hunkStart h ∧ hunkEnd h ≤ P.length := by
      simp only [wfHunk, Bool.and_eq_true, decide_eq_true_eq] at hwfh
      exact ⟨hwfh.1.1.1.1, hwfh.1.1.1.2, hwfh.1.1.2, hwfh.1.2, hwfh.2⟩
    rw [List.foldlM_cons,
      specHunkEq c P h lo acc hw.1 hw.2.1 hw.2.2.1 hw.2.2.2.1 hw.2.2.2.2,
      ok_bind,
      ih (hunkEnd h) _ hrest]
    have hsegeq : (P.drop (hunkStart h)).take (consumedOf h.Data) =
        (P.take (hunkEnd h)).drop (hunkStart h) := by
      rw [List.take_drop]
      rfl
    rw [show asmOut c P lo (h :: hs) =
        (P.take (hunkStart h)).drop lo ++
          outOf c h.Data ((P.take (hunkEnd h)).drop (hunkStart h)) ++
          asmOut c P (hunkEnd h) hs from rfl]
    rw [hsegeq]
    simp [List.append_assoc]

/-- Claim C5: on a well-formed diff with pairwise-disjoint in-range hunks,
the Go single-parent apply (descending in-place hunk application) returns
the same blame as the spec's reference algorithm (ascending sort, cursor
`old_index`, verbatim gap copies, per-op body handling). -/
theorem c5_refines_spec_algorithm (file : Blame) (d : Diff) (c : String)
    (hwf : wfDisjoint file d = true) :
    applyOneParent file d c = applyOneParentSpec file d c := by
  have hw : keysStrictAsc (sortHunksAsc d.Hunks) = true ∧
      hunksSeq file.Lines.length 0 (sortHunksAsc d.Hunks) = true := by
    simpa [wfDisjoint, Bool.and_eq_true] using hwf
  unfold applyOneParent applyOneParentSpec
  rw [sortHunksDesc_eq_reverse d.Hunks hw.1,
    goFold c file.Lines (sortHunksAsc d.Hunks) 0 hw.2]
  have hspec := specFold c file.Lines (sortHunksAsc d.Hunks) 0 [] hw.2
  cases hfold : (sortHunksAsc d.Hunks).foldlM (specHunk file.Lines c)
      (0, []) with
  | error e => rw [hfold] at hspec; exact Except.noConfusion hspec
  | ok st =>
    rw [hfold] at hspec
    have hval : st.2 ++ file.Lines.drop st.1 =
        [] ++ asmOut c file.Lines 0 (sortHunksAsc d.Hunks) :=
      Except.ok.inj hspec
    show Except.ok (Blame.mk c
        (List.take 0 file.Lines ++ asmOut c file.Lines 0 (sortHunksAsc d.Hunks)))
      = Except.ok (Blame.mk c (st.2 ++ file.Lines.drop st.1))
    rw [hval]
    simp

/-- Witness for C5: a parent of four lines with two disjoint hunks (a
replacement at line 1 and a deletion at line 4); both algorithms produce
the same blame, computed explicitly. -/
theorem c5_refines_spec_algorithm_w :
    applyOneParent ⟨"A", [⟨[97], "A"⟩, ⟨[98], "A"⟩, ⟨[99], "A"⟩, ⟨[100], "A"⟩]⟩
        ⟨[⟨[⟨4⟩], [[minusB, 100]]⟩, ⟨[⟨1⟩], [[minusB, 97], [plusB, 65]]⟩],
          false⟩ "B" =
      applyOneParentSpec
        ⟨"A", [⟨[97], "A"⟩, ⟨[98], "A"⟩, ⟨[99], "A"⟩, ⟨[100], "A"⟩]⟩
        ⟨[⟨[⟨4⟩], [[minusB, 100]]⟩, ⟨[⟨1⟩], [[minusB, 97], [plusB, 65]]⟩],
          false⟩ "B" ∧
    applyOneParent ⟨"A", [⟨[97], "A"⟩, ⟨[98], "A"⟩, ⟨[99], "A"⟩, ⟨[100], "A"⟩]⟩
        ⟨[⟨[⟨4⟩], [[minusB, 100]]⟩, ⟨[⟨1⟩], [[minusB, 97], [plusB, 65]]⟩],
          false⟩ "B" =
      .ok ⟨"B", [⟨[65], "B"⟩, ⟨[98], "A"⟩, ⟨[99], "A"⟩]⟩ :=
  ⟨c5_refines_spec_algorithm
      ⟨"A", [⟨[97], "A"⟩, ⟨[98], "A"⟩, ⟨[99], "A"⟩, ⟨[100], "A"⟩]⟩
      ⟨[⟨[⟨4⟩], [[minusB, 100]]⟩, ⟨[⟨1⟩], [[minusB, 97], [plusB, 65]]⟩],
        false⟩ "B" (by decide),
    by decide⟩

end Incblame
